import Mathlib

/-!
Verification of the entimport schema-inference engine.

This file shallowly embeds the core of `internal/entimport` (import.go,
mysql.go, postgres.go): the Atlas schema snapshot data model, the dialect
column type mappers, the join-table classifier, the entity builder and the
relationship inference passes.  Machinery that Go expresses through pointer
mutation (the shared `mutations` map, edge/field descriptors updated in
place) is expressed here by explicit state passing over association lists.
Go's `(value, error)` returns become `Except String`.
-/

set_option maxHeartbeats 1000000

namespace Entimport

/-! ## Atlas schema snapshot (input data model)

Mirrors the parts of `ariga.io/atlas/sql/schema` that import.go reads.
Columns are compared by name: Atlas guarantees a table holds one column
object per name, so Go pointer equality between column references inside
one table coincides with name equality. -/

/-- The column type universe consumed by the dialect mappers
(`schema.BinaryType`, `schema.BoolType`, ..., `postgres.SerialType`,
`postgres.UUIDType`).  `other` stands for any concrete type that reaches
the `default` arm of the mapper switch, carrying its printed form. -/
inductive SqlType where
  | binary : SqlType
  | bool : SqlType
  | decimal : SqlType
  | enum (values : List String) : SqlType
  | float (t : String) (precision : Int) : SqlType
  | integer (t : String) (unsigned : Bool) : SqlType
  | json : SqlType
  | string : SqlType
  | time : SqlType
  | serial (t : String) : SqlType
  | uuid : SqlType
  | other (printed : String) : SqlType
  deriving Repr, DecidableEq

/-- A column attribute (`schema.Attr`); the mappers only look at comments. -/
inductive Attr where
  | comment (text : String) : Attr
  | otherAttr : Attr
  deriving Repr, DecidableEq

/-- `schema.Column`: name, type, nullability (`ColumnType.Null`), attributes. -/
structure Column where
  name : String
  ctype : SqlType := .string
  null : Bool := false
  attrs : List Attr := []
  deriving Repr, DecidableEq

/-- `schema.Index`: uniqueness flag and its parts (the referenced columns). -/
structure Index where
  iname : String := ""
  unique : Bool := false
  parts : List Column := []
  deriving Repr, DecidableEq

/-- `schema.ForeignKey`: the child-side columns and the referenced (parent)
table, of which import.go only ever reads the name. -/
structure ForeignKey where
  columns : List Column := []
  refTableName : String := ""
  deriving Repr, DecidableEq

/-- `schema.Table`.  `primaryKey` is the list of primary-key part columns
(`Table.PrimaryKey.Parts[i].C`); `none` models a nil `PrimaryKey`. -/
structure Table where
  name : String
  columns : List Column := []
  primaryKey : Option (List Column) := none
  indexes : List Index := []
  foreignKeys : List ForeignKey := []
  deriving Repr, DecidableEq

/-! ## Ent field and edge descriptors (output data model) -/

/-- The ent field kinds produced by the two dialect mappers
(`field.Bytes`, `field.Bool`, ..., `field.Uint64`, `field.Uint`). -/
inductive FieldType where
  | bytes : FieldType
  | bool : FieldType
  | float : FieldType
  | float32 : FieldType
  | enum (values : List String) : FieldType
  | int8 : FieldType
  | int16 : FieldType
  | int32 : FieldType
  | int : FieldType
  | uint8 : FieldType
  | uint16 : FieldType
  | uint32 : FieldType
  | uint64 : FieldType
  | uint : FieldType
  | json : FieldType
  | string : FieldType
  | time : FieldType
  | uuid : FieldType
  deriving Repr, DecidableEq

/-- The parts of `ent` field `Descriptor` written by this code.  Go zero
values: empty strings.  `pgType` models the `SchemaType` override that
`convertSerial` records for Postgres. -/
structure Field where
  name : String
  ftype : FieldType := .string
  optional : Bool := false
  unique : Bool := false
  comment : String := ""
  storageKey : String := ""
  pgType : String := ""
  deriving Repr, DecidableEq

/-- Edge direction (the `to` / `from` constants of import.go). -/
inductive EdgeDir where
  | dirTo : EdgeDir
  | dirFrom : EdgeDir
  deriving Repr, DecidableEq

/-- The parts of the ent edge `Descriptor` written by `entEdge` and
`setEdgeField`. -/
structure Edge where
  dir : EdgeDir
  ename : String
  etype : String := ""
  unique : Bool := false
  refName : String := ""
  efield : String := ""
  deriving Repr, DecidableEq

/-- `schemast.UpsertSchema`: entity name, fields, edges.  `annot` is the
`entsql.Annotation{Table: ...}` recorded by `schemaMutations`. -/
structure UpsertSchema where
  sname : String
  fields : List Field := []
  edges : List Edge := []
  annot : Option String := none
  deriving Repr, DecidableEq

/-- `relOptions` of import.go. -/
structure RelOptions where
  uniqueEdgeToChild : Bool := false
  recursive : Bool := false
  uniqueEdgeFromParent : Bool := false
  refName : String := ""
  edgeField : String := ""
  deriving Repr, DecidableEq

/-! ## The external inflection collaborator

`github.com/go-openapi/inflect` is outside this repository; the engine is
parameterized over it.  `inflectEN` below instantiates it for the concrete
identifiers used in witnesses, agreeing with the library there. -/

structure Inflect where
  singularize : String → String
  pluralize : String → String
  camelize : String → String
  underscore : String → String

/-- Concrete instance of the inflection collaborator: drops / appends a
trailing "s" and capitalizes / lowercases, which is exactly what
go-openapi/inflect does on regular lowercase nouns such as
"users", "cards", "nodes". -/
def inflectEN : Inflect where
  singularize s :=
    if s.data.getLast? = some 's' then String.mk s.data.dropLast else s
  pluralize s :=
    if s.data.getLast? = some 's' then s else String.mk (s.data ++ ['s'])
  camelize s :=
    match s.data with
    | [] => s
    | c :: cs => String.mk (c.toUpper :: cs)
  underscore s := String.mk (s.data.map Char.toLower)

/-- `typeName` of import.go. -/
def typeName (I : Inflect) (tblName : String) : String :=
  I.camelize (I.singularize tblName)

/-- `tableName` of import.go. -/
def tableName (I : Inflect) (tyName : String) : String :=
  I.underscore (I.pluralize tyName)

/-! ## Error values -/

/-- `joinTableErr` of import.go. -/
def joinTableErr : String :=
  "entimport: join tables must be inspected with ref tables - append \x60tables\x60 flag"

/-- The error of `resolvePrimaryKey`. -/
def invalidPkErr : String :=
  "entimport: invalid primary key - single part key must be present"

/-- Stands for a Go runtime panic (nil-map-entry dereference); the Go code
crashes rather than returning an error on these paths. -/
def panicErr : String :=
  "panic: runtime error: invalid memory address or nil pointer dereference"

/-- The error of the foreign-key pass of `upsertNode`. -/
def fkMissingErr (colName : String) : String :=
  "foreign key for column: \x22" ++ colName ++ "\x22 doesn\x27t exist in referenced table"

/-! ## Dialect column type mappers -/

/-- Printed form of a type value, standing for Go's rendering of the
`%q`/`%v` verbs on the concrete Atlas type in the error messages. -/
def typePrinted : SqlType → String
  | .binary => "binary"
  | .bool => "bool"
  | .decimal => "decimal"
  | .enum _ => "enum"
  | .float t _ => t
  | .integer t _ => t
  | .json => "json"
  | .string => "string"
  | .time => "time"
  | .serial t => t
  | .uuid => "uuid"
  | .other printed => printed

/-- `applyColumnAttributes` of import.go: optionality from nullability, a
comment if present. -/
def applyColumnAttributes (f : Field) (col : Column) : Field :=
  let f := { f with optional := col.null }
  col.attrs.foldl
    (fun f a =>
      match a with
      | .comment text => { f with comment := text }
      | .otherAttr => f)
    f

/-- `(*MySQL).convertFloat`: `double` maps to `field.Float`, everything
else (`float`) to `field.Float32`. -/
def mysqlConvertFloat (t : String) : FieldType :=
  if t == "double" then .float else .float32

/-- `(*MySQL).convertInteger`.  A `none` result models the fall-through of
the Go switch, which leaves the field nil and makes the caller panic. -/
def mysqlConvertInteger (t : String) (unsigned : Bool) : Option FieldType :=
  if unsigned then
    if t == "tinyint" then some .uint8
    else if t == "smallint" then some .uint16
    else if t == "mediumint" then some .uint32
    else if t == "int" then some .uint32
    else if t == "bigint" then some .uint64
    else none
  else
    if t == "tinyint" then some .int8
    else if t == "smallint" then some .int16
    else if t == "mediumint" then some .int32
    else if t == "int" then some .int32
    -- Int64 is not used on purpose: bigint maps to the platform int field.
    else if t == "bigint" then some .int
    else none

/-- `(*Postgres).convertInteger`. -/
def pgConvertInteger (t : String) : Option FieldType :=
  if t == "smallint" then some .int16
  else if t == "integer" then some .int32
  -- Int64 is not used on purpose: bigint maps to the platform int field.
  else if t == "bigint" then some .int
  else none

/-- `(*Postgres).convertFloat`: `real` maps to `field.Float32`, the rest to
`field.Float`. -/
def pgConvertFloat (t : String) : FieldType :=
  if t == "real" then .float32 else .float

/-- The error message of the `default` arm of `(*MySQL).field`. -/
def mysqlUnsupportedMsg (colName : String) (tp : SqlType) : String :=
  "column " ++ colName ++ ": unsupported type " ++ typePrinted tp

/-- `(*MySQL).field`: maps an Atlas column to an ent field, applying
`applyColumnAttributes` on success. -/
def mysqlField (column : Column) : Except String Field :=
  let name := column.name
  let fE : Except String Field :=
    match column.ctype with
    | .binary => .ok { name, ftype := .bytes }
    | .bool => .ok { name, ftype := .bool }
    | .decimal => .ok { name, ftype := .float }
    | .enum vs => .ok { name, ftype := .enum vs }
    | .float t _ => .ok { name, ftype := mysqlConvertFloat t }
    | .integer t unsigned =>
      match mysqlConvertInteger t unsigned with
      | some ft => .ok { name, ftype := ft }
      | none => .error panicErr
    | .json => .ok { name, ftype := .json }
    | .string => .ok { name, ftype := .string }
    | .time => .ok { name, ftype := .time }
    | tp => .error (mysqlUnsupportedMsg column.name tp)
  fE.map (fun f => applyColumnAttributes f column)

/-- The error message of the `default` arm of `(*Postgres).field`. -/
def pgUnsupportedMsg (colName : String) (tp : SqlType) : String :=
  "entimport: unsupported type " ++ typePrinted tp ++ " for column " ++ colName

/-- `(*Postgres).field`. -/
def pgField (column : Column) : Except String Field :=
  let name := column.name
  let fE : Except String Field :=
    match column.ctype with
    | .binary => .ok { name, ftype := .bytes }
    | .bool => .ok { name, ftype := .bool }
    | .decimal => .ok { name, ftype := .float }
    | .enum vs => .ok { name, ftype := .enum vs }
    | .float t _ => .ok { name, ftype := pgConvertFloat t }
    | .integer t _ =>
      match pgConvertInteger t with
      | some ft => .ok { name, ftype := ft }
      | none => .error panicErr
    | .json => .ok { name, ftype := .json }
    | .string => .ok { name, ftype := .string }
    | .time => .ok { name, ftype := .time }
    -- convertSerial: field.Uint with a SchemaType override recording typ.T.
    | .serial t => .ok { name, ftype := .uint, pgType := t }
    | .uuid => .ok { name, ftype := .uuid }
    | tp => .error (pgUnsupportedMsg column.name tp)
  fE.map (fun f => applyColumnAttributes f column)

/-! ## String-keyed maps

Go's maps (`mutations map[string]schemast.Mutator`, the `fields` map of
`upsertNode`, `idxs`, `joinTables`) hold pointers; in-place mutation
through a looked-up pointer becomes `updateA`, which rewrites the entry
without changing the key set.  We model every such map as an association
list in insertion order. -/

/-- Association-list lookup, `m[key]`. -/
def lookupA {α : Type} (l : List (String × α)) (key : String) : Option α :=
  (List.find? (fun p => p.1 == key) l).map Prod.snd

/-- Rewrite the entry behind `m[key]` (mutation through a map-held
pointer); keys are untouched. -/
def updateA {α : Type} (l : List (String × α)) (key : String) (f : α → α) :
    List (String × α) :=
  List.map (fun p => if p.1 == key then (p.1, f p.2) else p) l

/-- Map insertion `m[key] = v` (overwrite or append). -/
def insertA {α : Type} (l : List (String × α)) (key : String) (v : α) :
    List (String × α) :=
  if (lookupA l key).isSome then updateA l key (fun _ => v) else l ++ [(key, v)]

/-- The `mutations` map: table name keyed entity descriptors. -/
abbrev Mutations := List (String × UpsertSchema)

/-- Map lookup (`mutations[name]` + the `*schemast.UpsertSchema` type
assertion, which in this program fails exactly when the key is absent). -/
def lookupMut (m : Mutations) (key : String) : Option UpsertSchema :=
  lookupA m key

/-- Map insertion `mutations[name] = node`. -/
def insertMut (m : Mutations) (key : String) (node : UpsertSchema) : Mutations :=
  insertA m key node

/-- Mutation through a pointer obtained from the map. -/
def updateMut (m : Mutations) (key : String) (node : UpsertSchema) : Mutations :=
  updateA m key (fun _ => node)

/-! ## Entity builder (`resolvePrimaryKey` / `upsertNode`) -/

/-- `resolvePrimaryKey` of import.go: requires a single-part primary key,
maps its column, renames the field to "id" keeping the physical name as
storage key. -/
def resolvePrimaryKey (ff : Column → Except String Field) (t : Table) :
    Except String Field := do
  match t.primaryKey with
  | some [p] =>
    let f ← ff p
    if f.name != "id" then
      pure { f with storageKey := f.name, name := "id" }
    else
      pure f
  | _ => .error invalidPkErr

/-- The guard skipping the primary-key column in the column loop of
`upsertNode` (`PrimaryKey != nil && len(Parts) != 0 && Parts[0].C.Name ==
column.Name`). -/
def skipPkCol (t : Table) (c : Column) : Bool :=
  match t.primaryKey with
  | some (p0 :: _) => p0.name == c.name
  | _ => false

/-- Go's `fields` map kept in sync with the `upsert.Fields` slice: an
association list from map key to field, in insertion order. -/
abbrev Fields := List (String × Field)

/-- `fields[key]` presence test. -/
def hasKey (fs : Fields) (key : String) : Bool :=
  (lookupA fs key).isSome

/-- The `if _, ok := fields[key]; !ok { fields[key] = f; upsert.Fields =
append(upsert.Fields, f) }` idiom. -/
def addField (fs : Fields) (key : String) (f : Field) : Fields :=
  if hasKey fs key then fs else fs ++ [(key, f)]

/-- Mutation of the field behind `fields[key]`: `Descriptor().Unique = true`. -/
def setUniqueAt (fs : Fields) (key : String) : Fields :=
  updateA fs key (fun f => { f with unique := true })

/-- Mutation of the field behind `fields[key]`: `Descriptor().Optional = true`. -/
def setOptionalAt (fs : Fields) (key : String) : Fields :=
  updateA fs key (fun f => { f with optional := true })

/-- One step of the column loop of `upsertNode`. -/
def addColStep (ff : Column → Except String Field) (t : Table) (fs : Fields)
    (c : Column) : Except String Fields :=
  if skipPkCol t c then pure fs
  else do
    let f ← ff c
    pure (addField fs c.name f)

/-- The column loop of `upsertNode` over an explicit column list. -/
def addColsGo (ff : Column → Except String Field) (t : Table)
    (cols : List Column) (fs0 : Fields) : Except String Fields :=
  cols.foldlM (addColStep ff t) fs0

/-- The column loop of `upsertNode`: map every non-primary-key column and
insert it if its name is new. -/
def addColumnsM (ff : Column → Except String Field) (t : Table) (fs0 : Fields) :
    Except String Fields :=
  addColsGo ff t t.columns fs0

/-- One step of the index loop of `upsertNode`.  A missing field is a nil
dereference in Go, modelled as `panicErr`. -/
def uniqIdxStep (fs : Fields) (idx : Index) : Except String Fields :=
  match idx.unique, idx.parts with
  | true, [c] =>
    if hasKey fs c.name then pure (setUniqueAt fs c.name)
    else .error panicErr
  | _, _ => pure fs

/-- The index loop of `upsertNode` over an explicit index list. -/
def uniqIdxGo (idxs : List Index) (fs0 : Fields) : Except String Fields :=
  idxs.foldlM uniqIdxStep fs0

/-- The index loop of `upsertNode`: a single-column unique index promotes
the referenced field to unique. -/
def applyUniqueIdxM (t : Table) (fs0 : Fields) : Except String Fields :=
  uniqIdxGo t.indexes fs0

/-- One step of the inner foreign-key column loop of `upsertNode`. -/
def fkColStep (fs : Fields) (c : Column) : Except String Fields :=
  if hasKey fs c.name then pure (setOptionalAt fs c.name)
  else .error (fkMissingErr c.name)

/-- The foreign-key loop of `upsertNode` over an explicit list. -/
def fkOptGo (fks : List ForeignKey) (fs0 : Fields) : Except String Fields :=
  fks.foldlM (fun fs fk => fk.columns.foldlM fkColStep fs) fs0

/-- The foreign-key loop of `upsertNode`: every column of every foreign
key is forced optional; a column absent from the fields map is an error. -/
def applyFkOptionalM (t : Table) (fs0 : Fields) : Except String Fields :=
  fkOptGo t.foreignKeys fs0

/-- `upsertNode` of import.go: primary key, columns, unique indexes,
foreign-key optionality, in that order. -/
def upsertNode (I : Inflect) (ff : Column → Except String Field) (t : Table) :
    Except String UpsertSchema := do
  let pk ← resolvePrimaryKey ff t
  let fs := addField [] pk.name pk
  let fs ← addColumnsM ff t fs
  let fs ← applyUniqueIdxM t fs
  let fs ← applyFkOptionalM t fs
  pure { sname := typeName I t.name, fields := List.map Prod.snd fs }

/-! ## Relationship inference (`entEdge` / `upsertRelation` / passes) -/

/-- The `to` branch of `entEdge`. -/
def entEdgeTo (I : Inflect) (nodeName nodeType : String) (opts : RelOptions) : Edge :=
  let e : Edge := { dir := .dirTo, ename := nodeName }
  let e := if opts.uniqueEdgeToChild then
      { e with unique := true, ename := I.singularize nodeName }
    else e
  let e := if opts.recursive then { e with ename := "child_" ++ e.ename } else e
  { e with etype := nodeType }

/-- `setEdgeField` of import.go: names the edge field, suffixing `_id` and
renaming the child field when the edge and the field share a name. -/
def setEdgeField (e : Edge) (opts : RelOptions) (childFields : List Field) :
    Edge × List Field :=
  if e.ename == opts.edgeField then
    let edgeField := opts.edgeField ++ "_id"
    ({ e with efield := edgeField },
     List.map
       (fun f => if f.name == opts.edgeField then { f with name := edgeField } else f)
       childFields)
  else
    ({ e with efield := opts.edgeField }, childFields)

/-- The `from` branch of `entEdge`, returning the edge together with the
(possibly renamed) fields of the child node it mutates. -/
def entEdgeFrom (I : Inflect) (nodeName nodeType : String)
    (childFields : List Field) (opts : RelOptions) : Edge × List Field :=
  let e : Edge := { dir := .dirFrom, ename := nodeName }
  let e := if opts.uniqueEdgeFromParent then
      { e with unique := true, ename := I.singularize nodeName }
    else e
  let (e, cf) := if opts.edgeField != "" then setEdgeField e opts childFields
    else (e, childFields)
  if opts.recursive then
    ({ e with ename := "parent_" ++ e.ename, etype := nodeType }, cf)
  else
    -- RefName describes which edge of the parent node is referenced.
    let refName := opts.refName
    let refName := if opts.uniqueEdgeToChild then I.singularize refName else refName
    ({ e with refName := refName, etype := nodeType }, cf)

/-- `upsertRelation` of import.go, lifted to the map: nodeA (under
`keyA`) gains the outgoing edge, nodeB (under `keyB`) gains the incoming
edge and possibly a renamed field.  When both keys coincide the Go nodes
alias one object, so both edges land on it in order. -/
def upsertRelation (I : Inflect) (m : Mutations) (keyA keyB : String)
    (opts : RelOptions) : Mutations :=
  match lookupMut m keyA, lookupMut m keyB with
  | some nodeA, some nodeB =>
    let tblA := tableName I nodeA.sname
    let tblB := tableName I nodeB.sname
    let opts := { opts with refName := tblB }
    if keyA == keyB then
      let (fromA, fieldsB) := entEdgeFrom I tblA nodeA.sname nodeB.fields opts
      let toB := entEdgeTo I tblB nodeB.sname opts
      updateMut m keyA
        { nodeA with fields := fieldsB, edges := nodeA.edges ++ [toB, fromA] }
    else
      let (fromA, fieldsB) := entEdgeFrom I tblA nodeA.sname nodeB.fields opts
      let toB := entEdgeTo I tblB nodeB.sname opts
      updateMut
        (updateMut m keyA { nodeA with edges := nodeA.edges ++ [toB] })
        keyB { nodeB with fields := fieldsB, edges := nodeB.edges ++ [fromA] }
  | _, _ => m

/-- `upsertManyToMany` of import.go: relates the two tables referenced by
the join table's two foreign keys, failing with `joinTableErr` when either
entity is absent.  The final arm models the index-out-of-range panic Go
would hit on fewer than two foreign keys (unreachable behind
`isJoinTable`). -/
def upsertManyToMany (I : Inflect) (m : Mutations) (t : Table) :
    Except String Mutations :=
  match t.foreignKeys with
  | fkA :: fkB :: _ =>
    match lookupMut m fkA.refTableName with
    | none => .error joinTableErr
    | some _ =>
      match lookupMut m fkB.refTableName with
      | none => .error joinTableErr
      | some _ =>
        .ok (upsertRelation I m fkA.refTableName fkB.refTableName
          { recursive := fkA.refTableName == fkB.refTableName })
  | _ => .error panicErr

/-- `isJoinTable` of import.go. -/
def isJoinTable (t : Table) : Bool :=
  match t.primaryKey with
  | some [p0, p1] =>
    t.foreignKeys.length == 2 &&
    t.foreignKeys.all
      (fun fk =>
        match fk.columns with
        | [c] => c.name == p0.name || c.name == p1.name
        | _ => false)
  | _ => false

/-- The `idxs` map of `upsertOneToX`: the last single-column index per
column name (later loop iterations overwrite earlier map entries). -/
def singleColIdxs (idxs : List Index) : List (String × Index) :=
  idxs.foldl
    (fun acc idx =>
      match idx.parts with
      | [c] => insertA acc c.name idx
      | _ => acc)
    []

/-- `idx, ok := idxs[col]; ok && idx.Unique`: whether the code sees the
foreign-key column as unique. -/
def codeUniqueCovered (t : Table) (colName : String) : Bool :=
  match lookupA (singleColIdxs t.indexes) colName with
  | some idx => idx.unique
  | none => false

/-- The `relOptions` built for one foreign key by `upsertOneToX`. -/
def oneToXOpts (t : Table) (parentName colName : String) : RelOptions :=
  { uniqueEdgeFromParent := true
    refName := t.name
    edgeField := colName
    recursive := t.name == parentName
    uniqueEdgeToChild := codeUniqueCovered t colName }

/-- The foreign-key loop of `upsertOneToX`.  A missing parent or child
entity returns from the whole function, abandoning the remaining keys. -/
def oneToXLoop (I : Inflect) (t : Table) (m : Mutations) :
    List ForeignKey → Mutations
  | [] => m
  | fk :: rest =>
    match fk.columns with
    | [c] =>
      let parentName := fk.refTableName
      let opts := oneToXOpts t parentName c.name
      match lookupMut m parentName, lookupMut m t.name with
      | some _, some _ =>
        oneToXLoop I t (upsertRelation I m parentName t.name opts) rest
      | _, _ => m
    | _ => oneToXLoop I t m rest

/-- `upsertOneToX` of import.go. -/
def upsertOneToX (I : Inflect) (m : Mutations) (t : Table) : Mutations :=
  if t.foreignKeys.isEmpty then m
  else oneToXLoop I t m t.foreignKeys

/-! ## Import orchestrator (`schemaMutations`) -/

/-- Association-list insertion for the `joinTables` map. -/
def insertJoin (js : List (String × Table)) (key : String) (t : Table) :
    List (String × Table) :=
  insertA js key t

/-- One step of pass 1 of `schemaMutations`: a join table is recorded in
the `joinTables` map, any other table becomes an entity (annotated with
its table name). -/
def buildStep (I : Inflect) (ff : Column → Except String Field)
    (acc : Mutations × List (String × Table)) (t : Table) :
    Except String (Mutations × List (String × Table)) :=
  if isJoinTable t then pure (acc.1, insertJoin acc.2 t.name t)
  else do
    let node ← upsertNode I ff t
    pure (insertMut acc.1 t.name { node with annot := some t.name }, acc.2)

/-- Pass 1 of `schemaMutations`: partition into join tables and entities. -/
def buildEntities (I : Inflect) (ff : Column → Except String Field)
    (tables : List Table) : Except String (Mutations × List (String × Table)) :=
  tables.foldlM (buildStep I ff) ([], [])

/-- One step of pass 2 of `schemaMutations`. -/
def relStep (I : Inflect) (js : List (String × Table)) (m : Mutations)
    (t : Table) : Except String Mutations :=
  match lookupA js t.name with
  | some jt => upsertManyToMany I m jt
  | none => pure (upsertOneToX I m t)

/-- Pass 2 of `schemaMutations`: many-to-many edges for join tables,
one-to-one / one-to-many edges for the rest. -/
def relationPass (I : Inflect) (js : List (String × Table))
    (tables : List Table) (m : Mutations) : Except String Mutations :=
  tables.foldlM (relStep I js) m

/-- `schemaMutations` of import.go up to the final flattening: the entity
map after both passes. -/
def schemaMutationsMap (I : Inflect) (ff : Column → Except String Field)
    (tables : List Table) : Except String Mutations := do
  let (m, js) ← buildEntities I ff tables
  relationPass I js tables m

/-- `schemaMutations` of import.go: the accumulated entities (Go iterates
the map in unspecified order; we keep insertion order). -/
def schemaMutations (I : Inflect) (ff : Column → Except String Field)
    (tables : List Table) : Except String (List UpsertSchema) :=
  (schemaMutationsMap I ff tables).map (fun m => List.map Prod.snd m)

/-- Whether an `Except` is an error. -/
def isErrE {α : Type} : Except String α → Bool
  | .error _ => true
  | .ok _ => false

/-! ## Association-list lemmas -/

theorem lookupA_nil {α : Type} (k : String) : lookupA ([] : List (String × α)) k = none := rfl

theorem lookupA_cons {α : Type} (p : String × α) (l : List (String × α)) (k : String) :
    lookupA (p :: l) k = if p.1 == k then some p.2 else lookupA l k := by
  simp only [lookupA, List.find?]
  cases h : p.1 == k <;> simp [h]

theorem lookupA_append {α : Type} (l l' : List (String × α)) (k : String) :
    lookupA (l ++ l') k = ((lookupA l k).orElse (fun _ => lookupA l' k)) := by
  induction l with
  | nil => simp [lookupA_nil, Option.orElse]
  | cons p l ih =>
    rw [List.cons_append, lookupA_cons, lookupA_cons]
    cases h : p.1 == k <;> simp [h, ih, Option.orElse]

theorem lookupA_updateA_self {α : Type} (l : List (String × α)) (k : String) (f : α → α) :
    lookupA (updateA l k f) k = (lookupA l k).map f := by
  induction l with
  | nil => rfl
  | cons p l ih =>
    simp only [updateA, List.map_cons]
    by_cases h : p.1 = k
    · simp [lookupA_cons, h]
    · have hb : (p.1 == k) = false := by simp [h]
      rw [if_neg (by simp [h]), lookupA_cons, hb, lookupA_cons, hb]
      simpa [updateA] using ih

theorem lookupA_updateA_ne {α : Type} (l : List (String × α)) (k k' : String) (f : α → α)
    (h : k' ≠ k) : lookupA (updateA l k f) k' = lookupA l k' := by
  induction l with
  | nil => rfl
  | cons p l ih =>
    simp only [updateA, List.map_cons]
    by_cases hpk : p.1 = k
    · have h1 : ((k : String) == k') = false := beq_eq_false_iff_ne.mpr (Ne.symm h)
      rw [if_pos (by simp [hpk]), lookupA_cons, lookupA_cons]
      simp only [hpk, h1]
      simp only [Bool.false_eq_true, if_false]
      exact ih
    · rw [if_neg (by simp [hpk]), lookupA_cons, lookupA_cons]
      cases hb : p.1 == k'
      · simp only [Bool.false_eq_true, if_false]
        exact ih
      · simp

theorem lookupA_updateA_isSome {α : Type} (l : List (String × α)) (k k' : String) (f : α → α) :
    (lookupA (updateA l k f) k').isSome = (lookupA l k').isSome := by
  by_cases h : k' = k
  · subst h; rw [lookupA_updateA_self]; cases lookupA l k' <;> rfl
  · rw [lookupA_updateA_ne _ _ _ _ h]

theorem lookupA_insertA_self {α : Type} (l : List (String × α)) (k : String) (v : α) :
    lookupA (insertA l k v) k = some v := by
  unfold insertA
  cases h : (lookupA l k).isSome
  · rw [if_neg (by simp [h]), lookupA_append]
    have : lookupA l k = none := by
      cases hv : lookupA l k
      · rfl
      · rw [hv] at h; simp at h
    simp [this, lookupA_cons, Option.orElse]
  · rw [if_pos (by simp [h]), lookupA_updateA_self]
    cases hv : lookupA l k
    · rw [hv] at h; simp at h
    · rfl

theorem lookupA_insertA_ne {α : Type} (l : List (String × α)) (k k' : String) (v : α)
    (h : k' ≠ k) : lookupA (insertA l k v) k' = lookupA l k' := by
  unfold insertA
  cases hb : (lookupA l k).isSome
  · rw [if_neg (by simp [hb]), lookupA_append]
    have h1 : ((k : String) == k') = false := beq_eq_false_iff_ne.mpr (Ne.symm h)
    cases hv : lookupA l k' <;> simp [hv, lookupA_cons, lookupA_nil, h1, Option.orElse]
  · rw [if_pos (by simp [hb]), lookupA_updateA_ne _ _ _ _ h]

theorem lookupA_isSome_iff {α : Type} (l : List (String × α)) (k : String) :
    (lookupA l k).isSome = true ↔ ∃ v, (k, v) ∈ l := by
  induction l with
  | nil => simp [lookupA_nil]
  | cons p l ih =>
    rw [lookupA_cons]
    by_cases h : p.1 = k
    · subst h
      constructor
      · intro _; exact ⟨p.2, by simp⟩
      · intro _; simp
    · rw [if_neg (by simp [h]), ih]
      constructor
      · rintro ⟨v, hv⟩; exact ⟨v, List.mem_cons_of_mem _ hv⟩
      · rintro ⟨v, hv⟩
        rcases List.mem_cons.mp hv with heq | hmem
        · exact absurd (congrArg Prod.fst heq.symm) h
        · exact ⟨v, hmem⟩

theorem lookupA_some_mem {α : Type} {l : List (String × α)} {k : String} {v : α}
    (h : lookupA l k = some v) : (k, v) ∈ l := by
  induction l with
  | nil => simp [lookupA_nil] at h
  | cons p l ih =>
    rw [lookupA_cons] at h
    by_cases hk : p.1 = k
    · rw [if_pos (by simp [hk])] at h
      have : p = (k, v) := by
        cases p; simp at h hk; simp [hk, h]
      simp [this]
    · rw [if_neg (by simp [hk])] at h
      exact List.mem_cons_of_mem _ (ih h)

theorem mem_updateA {α : Type} {l : List (String × α)} {k : String} {f : α → α}
    {p : String × α} (h : p ∈ updateA l k f) :
    (p ∈ l ∧ p.1 ≠ k) ∨ ∃ v, (k, v) ∈ l ∧ p = (k, f v) := by
  rcases List.mem_map.mp h with ⟨q, hq, hqe⟩
  by_cases hk : q.1 = k
  · right
    refine ⟨q.2, ?_, ?_⟩
    · have hqq : q = (k, q.2) := by cases q; simp_all
      rwa [← hqq]
    · rw [← hqe, if_pos (by simp [hk])]
      simp [hk]
  · left
    rw [← hqe, if_neg (by simp [hk])]
    exact ⟨hq, hk⟩

theorem mem_updateA_of_mem_ne {α : Type} {l : List (String × α)} {k : String} {f : α → α}
    {p : String × α} (h : p ∈ l) (hne : p.1 ≠ k) : p ∈ updateA l k f := by
  have : (if p.1 == k then (p.1, f p.2) else p) = p := by rw [if_neg (by simp [hne])]
  rw [← this]
  exact List.mem_map_of_mem _ h

theorem lookupA_insertA_cases {α : Type} {l : List (String × α)} {k k' : String}
    {v w : α} (h : lookupA (insertA l k v) k' = some w) :
    (k' = k ∧ w = v) ∨ lookupA l k' = some w := by
  by_cases hk : k' = k
  · subst hk
    rw [lookupA_insertA_self] at h
    exact Or.inl ⟨rfl, (Option.some_inj.mp h).symm⟩
  · rw [lookupA_insertA_ne _ _ _ _ hk] at h
    exact Or.inr h

theorem Except_ok_bind {α β : Type} (a : α) (f : α → Except String β) :
    (Except.ok a >>= f) = f a := rfl

theorem Except_error_bind {α β : Type} (e : String) (f : α → Except String β) :
    ((Except.error e : Except String α) >>= f) = Except.error e := rfl

theorem Except_pure {α : Type} (a : α) : (pure a : Except String α) = Except.ok a := rfl

/-! ## Key preservation through the relation pass

Pass 2 only rewrites entries behind looked-up map pointers, so the key
set of the entity map never changes once pass 1 is done. -/

theorem upsertRelation_isSome (I : Inflect) (m : Mutations) (kA kB : String)
    (opts : RelOptions) (k : String) :
    (lookupMut (upsertRelation I m kA kB opts) k).isSome = (lookupMut m k).isSome := by
  unfold upsertRelation
  cases hA : lookupMut m kA <;> cases hB : lookupMut m kB <;> simp only [hA, hB]
  by_cases hk : kA = kB
  · rw [if_pos (by simp [hk])]
    simp only [lookupMut, updateMut]
    rw [lookupA_updateA_isSome]
  · rw [if_neg (by simp [hk])]
    simp only [lookupMut, updateMut]
    rw [lookupA_updateA_isSome, lookupA_updateA_isSome]

theorem oneToXLoop_isSome (I : Inflect) (t : Table) (k : String) :
    ∀ (fks : List ForeignKey) (m : Mutations),
      (lookupMut (oneToXLoop I t m fks) k).isSome = (lookupMut m k).isSome := by
  intro fks
  induction fks with
  | nil => intro m; rfl
  | cons fk rest ih =>
    intro m
    unfold oneToXLoop
    cases hc : fk.columns with
    | nil => exact ih m
    | cons c cs =>
      cases cs with
      | nil =>
        cases hp : lookupMut m fk.refTableName <;>
          cases hch : lookupMut m t.name <;> simp only [hp, hch]
        rw [ih, upsertRelation_isSome]
      | cons c2 cs2 => exact ih m

theorem upsertOneToX_isSome (I : Inflect) (m : Mutations) (t : Table) (k : String) :
    (lookupMut (upsertOneToX I m t) k).isSome = (lookupMut m k).isSome := by
  unfold upsertOneToX
  cases t.foreignKeys.isEmpty
  · simp only [Bool.false_eq_true, if_false]
    exact oneToXLoop_isSome I t k _ m
  · rfl

theorem upsertManyToMany_ok_isSome {I : Inflect} {m m' : Mutations} {t : Table}
    (h : upsertManyToMany I m t = .ok m') (k : String) :
    (lookupMut m' k).isSome = (lookupMut m k).isSome := by
  unfold upsertManyToMany at h
  split at h
  · split at h
    · exact absurd h (by simp)
    · split at h
      · exact absurd h (by simp)
      · cases h
        rw [upsertRelation_isSome]
  · exact absurd h (by simp)

theorem relStep_ok_isSome {I : Inflect} {js : List (String × Table)}
    {m m' : Mutations} {t : Table} (h : relStep I js m t = .ok m') (k : String) :
    (lookupMut m' k).isSome = (lookupMut m k).isSome := by
  unfold relStep at h
  cases hj : lookupA js t.name <;> rw [hj] at h
  · cases h
    exact upsertOneToX_isSome I m t k
  · exact upsertManyToMany_ok_isSome h k

theorem relationPass_ok_isSome {I : Inflect} {js : List (String × Table)} :
    ∀ {tables : List Table} {m m' : Mutations},
      relationPass I js tables m = .ok m' → ∀ k : String,
      (lookupMut m' k).isSome = (lookupMut m k).isSome := by
  intro tables
  induction tables with
  | nil =>
    intro m m' h k
    cases h
    rfl
  | cons t rest ih =>
    intro m m' h k
    rw [relationPass, List.foldlM_cons] at h
    cases hs : relStep I js m t <;> rw [hs] at h
    · rw [Except_error_bind] at h
      exact Except.noConfusion h
    · rw [Except_ok_bind] at h
      have := ih h k
      rw [this, relStep_ok_isSome hs]

/-! ## Pass-1 invariants -/

theorem buildStep_ok_keys {I : Inflect} {ff : Column → Except String Field}
    {acc acc' : Mutations × List (String × Table)} {t : Table}
    (h : buildStep I ff acc t = .ok acc') (k : String)
    (hk : (lookupMut acc'.1 k).isSome = true) :
    (lookupMut acc.1 k).isSome = true ∨ (t.name = k ∧ isJoinTable t = false) := by
  unfold buildStep at h
  cases hj : isJoinTable t <;> rw [hj] at h
  · simp only [Bool.false_eq_true, if_false] at h
    cases hn : upsertNode I ff t <;> rw [hn] at h
    · rw [Except_error_bind] at h
      exact Except.noConfusion h
    · rw [Except_ok_bind, Except_pure] at h
      cases h
      dsimp only at hk
      by_cases hkt : k = t.name
      · exact Or.inr ⟨hkt.symm, rfl⟩
      · rw [lookupMut, insertMut, lookupA_insertA_ne _ _ _ _ hkt] at hk
        exact Or.inl hk
  · rw [if_pos rfl, Except_pure] at h
    cases h
    dsimp only at hk
    exact Or.inl hk

theorem buildStep_ok_js {I : Inflect} {ff : Column → Except String Field}
    {acc acc' : Mutations × List (String × Table)} {t : Table}
    (h : buildStep I ff acc t = .ok acc') (k : String) (jt : Table)
    (hk : lookupA acc'.2 k = some jt) :
    lookupA acc.2 k = some jt ∨ (jt = t ∧ t.name = k ∧ isJoinTable t = true) := by
  unfold buildStep at h
  cases hj : isJoinTable t <;> rw [hj] at h
  · simp only [Bool.false_eq_true, if_false] at h
    cases hn : upsertNode I ff t <;> rw [hn] at h
    · rw [Except_error_bind] at h
      exact Except.noConfusion h
    · rw [Except_ok_bind, Except_pure] at h
      cases h
      dsimp only at hk
      exact Or.inl hk
  · rw [if_pos rfl, Except_pure] at h
    cases h
    dsimp only at hk
    rw [insertJoin] at hk
    rcases lookupA_insertA_cases hk with ⟨hke, hje⟩ | hold
    · exact Or.inr ⟨hje, hke.symm, rfl⟩
    · exact Or.inl hold

theorem buildFold_keys {I : Inflect} {ff : Column → Except String Field} :
    ∀ {tables : List Table} {acc res : Mutations × List (String × Table)},
      tables.foldlM (buildStep I ff) acc = .ok res → ∀ k : String,
      (lookupMut res.1 k).isSome = true →
      (lookupMut acc.1 k).isSome = true ∨
        ∃ t ∈ tables, t.name = k ∧ isJoinTable t = false := by
  intro tables
  induction tables with
  | nil =>
    intro acc res h k hk
    cases h
    exact Or.inl hk
  | cons t rest ih =>
    intro acc res h k hk
    rw [List.foldlM_cons] at h
    cases hs : buildStep I ff acc t <;> rw [hs] at h
    · rw [Except_error_bind] at h
      exact Except.noConfusion h
    · rw [Except_ok_bind] at h
      rcases ih h k hk with hacc | ⟨t', ht', hn, hj⟩
      · rcases buildStep_ok_keys hs k hacc with hbase | ⟨hn, hj⟩
        · exact Or.inl hbase
        · exact Or.inr ⟨t, List.mem_cons_self t rest, hn, hj⟩
      · exact Or.inr ⟨t', List.mem_cons_of_mem _ ht', hn, hj⟩

theorem buildFold_js_join {I : Inflect} {ff : Column → Except String Field} :
    ∀ {tables : List Table} {acc res : Mutations × List (String × Table)},
      tables.foldlM (buildStep I ff) acc = .ok res →
      (∀ k jt, lookupA acc.2 k = some jt → isJoinTable jt = true) →
      ∀ k jt, lookupA res.2 k = some jt → isJoinTable jt = true := by
  intro tables
  induction tables with
  | nil =>
    intro acc res h hacc k jt hk
    cases h
    exact hacc k jt hk
  | cons t rest ih =>
    intro acc res h hacc k jt hk
    rw [List.foldlM_cons] at h
    cases hs : buildStep I ff acc t <;> rw [hs] at h
    · rw [Except_error_bind] at h
      exact Except.noConfusion h
    · rw [Except_ok_bind] at h
      refine ih h ?_ k jt hk
      intro k' jt' hk'
      rcases buildStep_ok_js hs k' jt' hk' with hold | ⟨hje, _, hj⟩
      · exact hacc k' jt' hold
      · subst hje
        exact hj

/-- The integer column types handled by `(*MySQL).convertInteger`. -/
def mysqlIntTypes : List String := ["tinyint", "smallint", "mediumint", "int", "bigint"]

/-- The integer column types handled by `(*Postgres).convertInteger`. -/
def pgIntTypes : List String := ["smallint", "integer", "bigint"]

/-- The claim's notion of declared width class for MySQL integer types, in
bits (tinyint is 1 byte, smallint 2, mediumint 3, int 4, bigint 8). -/
def mysqlDeclaredBits : String → Option Nat
  | "tinyint" => some 8
  | "smallint" => some 16
  | "mediumint" => some 24
  | "int" => some 32
  | "bigint" => some 64
  | _ => none

/-- The claim's notion of declared width class for PostgreSQL integer
types, in bits (smallint is 2 bytes, integer 4, bigint 8). -/
def pgDeclaredBits : String → Option Nat
  | "smallint" => some 16
  | "integer" => some 32
  | "bigint" => some 64
  | _ => none

/-- Width class of an ent integer field type, in bits.  The platform
`int`/`uint` types count as the 64-bit class (the spec: the largest
integer width deliberately maps to a platform-native type). -/
def fieldBits : FieldType → Option Nat
  | .int8 => some 8
  | .uint8 => some 8
  | .int16 => some 16
  | .uint16 => some 16
  | .int32 => some 32
  | .uint32 => some 32
  | .int => some 64
  | .uint64 => some 64
  | .uint => some 64
  | _ => none

/-! ## Shared concrete schema snapshots for witnesses and counterexamples -/

/-- A bigint primary-key column named "id". -/
def colId : Column := { name := "id", ctype := .integer "bigint" false }

/-- `users(id PK)`. -/
def usersT : Table := { name := "users", columns := [colId], primaryKey := some [colId] }

/-- A bigint column `user_card`. -/
def colUserCard : Column := { name := "user_card", ctype := .integer "bigint" false }

/-- `cards(id PK, user_card bigint UNIQUE FK -> users.id)`. -/
def cardsT : Table :=
  { name := "cards", columns := [colId, colUserCard], primaryKey := some [colId],
    indexes := [{ iname := "cards_user_card_key", unique := true, parts := [colUserCard] }],
    foreignKeys := [{ columns := [colUserCard], refTableName := "users" }] }

/-- A bigint column `node_next`. -/
def colNodeNext : Column := { name := "node_next", ctype := .integer "bigint" false }

/-- `nodes(id PK, node_next bigint UNIQUE FK -> nodes.id)`: a recursive
one-to-one relationship. -/
def nodesT : Table :=
  { name := "nodes", columns := [colId, colNodeNext], primaryKey := some [colId],
    indexes := [{ iname := "nodes_node_next_key", unique := true, parts := [colNodeNext] }],
    foreignKeys := [{ columns := [colNodeNext], refTableName := "nodes" }] }

/-- A bigint column `group_id`. -/
def colGid : Column := { name := "group_id", ctype := .integer "bigint" false }

/-- A bigint column `user_id`. -/
def colUid : Column := { name := "user_id", ctype := .integer "bigint" false }

/-- `groups(id PK)`. -/
def groupsT : Table := { name := "groups", columns := [colId], primaryKey := some [colId] }

/-- `group_users(group_id FK -> groups.id, user_id FK -> users.id,
PK(group_id, user_id))`: a join table. -/
def guT : Table :=
  { name := "group_users", columns := [colGid, colUid],
    primaryKey := some [colGid, colUid],
    foreignKeys := [{ columns := [colGid], refTableName := "groups" },
                    { columns := [colUid], refTableName := "users" }] }

/-- A bigint column named `user`, colliding with the singularized edge
name of a `users` parent. -/
def colUser : Column := { name := "user", ctype := .integer "bigint" false }

/-- `cards(id PK, user bigint FK -> users.id)` carrying a unique index on
`user` that a later non-unique single-column index shadows in the `idxs`
map of `upsertOneToX`. -/
def cardsUserT : Table :=
  { name := "cards", columns := [colId, colUser], primaryKey := some [colId],
    indexes := [{ iname := "cards_user_uniq", unique := true, parts := [colUser] },
                { iname := "cards_user_idx", unique := false, parts := [colUser] }],
    foreignKeys := [{ columns := [colUser], refTableName := "users" }] }

/-- A spatial column `g`, whose type no mapper supports. -/
def colG : Column := { name := "g", ctype := .other "geometry" }

/-- `shapes(id PK, g geometry)`: a table with an unmappable column. -/
def shapesT : Table :=
  { name := "shapes", columns := [colId, colG], primaryKey := some [colId] }

/-- The join table `group_users` with an extra unmappable `geometry`
column; still classified as a join table. -/
def guGeomT : Table :=
  { name := "group_users", columns := [colGid, colUid, colG],
    primaryKey := some [colGid, colUid],
    foreignKeys := [{ columns := [colGid], refTableName := "groups" },
                    { columns := [colUid], refTableName := "users" }] }

/-! ## Claim C2: the join-table classifier -/

/-- The condition `isJoinTable` actually decides: two primary-key parts,
two foreign keys, and each foreign key's sole column is one of the two
primary-key columns (membership, not set equality). -/
def codeJoinCond (t : Table) : Prop :=
  ∃ p0 p1, t.primaryKey = some [p0, p1] ∧ t.foreignKeys.length = 2 ∧
    ∀ fk ∈ t.foreignKeys, ∃ c, fk.columns = [c] ∧
      (c.name = p0.name ∨ c.name = p1.name)

/-- The claim's condition, following its words: the set of the two
foreign-key columns equals, as a set, the set of the two primary-key
columns. -/
def specJoinTable (t : Table) : Prop :=
  ∃ p0 p1, t.primaryKey = some [p0, p1] ∧
    ∃ fk0 fk1, t.foreignKeys = [fk0, fk1] ∧
      ∃ c0 c1, fk0.columns = [c0] ∧ fk1.columns = [c1] ∧
        ({c0.name, c1.name} : Finset String) = {p0.name, p1.name}

/-- A malformed bridge table: PK(group_id, user_id) but both foreign keys
ride on `group_id` alone. -/
def guDupT : Table :=
  { name := "group_users", columns := [colGid, colUid],
    primaryKey := some [colGid, colUid],
    foreignKeys := [{ columns := [colGid], refTableName := "groups" },
                    { columns := [colGid], refTableName := "teams" }] }

/-- C2, counterexample: the classifier accepts a table whose two
foreign-key columns are both `group_id`, although their set does not
equal the primary-key column set — `isJoinTable` checks membership of
each FK column among the two PK columns, not set equality. -/
theorem C2_counterexample : isJoinTable guDupT = true ∧ ¬ specJoinTable guDupT := by
  constructor
  · decide
  · rintro ⟨p0, p1, hpk, fk0, fk1, hfks, c0, c1, h0, h1, hset⟩
    have hp : colGid = p0 ∧ colUid = p1 := by
      simpa [guDupT] using hpk
    have hf : ({ columns := [colGid], refTableName := "groups" } : ForeignKey) = fk0 ∧
        ({ columns := [colGid], refTableName := "teams" } : ForeignKey) = fk1 := by
      simpa [guDupT] using hfks
    obtain ⟨hp0, hp1⟩ := hp
    obtain ⟨hf0, hf1⟩ := hf
    subst hp0; subst hp1; subst hf0; subst hf1
    have hc0 : colGid = c0 := by simpa using h0
    have hc1 : colGid = c1 := by simpa using h1
    subst hc0; subst hc1
    exact absurd hset (by decide)

/-- C2 (amended): `isJoinTable` returns true iff the primary key has
exactly two parts, there are exactly two foreign keys, and each foreign
key's sole column is one of the two primary-key columns (membership
rather than set equality); and every entity in the built entity map stems
from a table the classifier rejected, so join tables never produce an
entity. -/
theorem C2_join_classifier (I : Inflect) (ff : Column → Except String Field)
    (t : Table) (tables : List Table) (m : Mutations)
    (hok : schemaMutationsMap I ff tables = .ok m) :
    (isJoinTable t = true ↔ codeJoinCond t) ∧
    (∀ k, (lookupMut m k).isSome = true →
      ∃ t' ∈ tables, t'.name = k ∧ isJoinTable t' = false) := by
  constructor
  · unfold isJoinTable
    cases hpk : t.primaryKey with
    | none => simp [codeJoinCond, hpk]
    | some ps =>
      match ps with
      | [] => simp [codeJoinCond, hpk]
      | [p0] => simp [codeJoinCond, hpk]
      | p0 :: p1 :: p2 :: rest => simp [codeJoinCond, hpk]
      | [p0, p1] =>
        constructor
        · intro h
          rw [Bool.and_eq_true] at h
          obtain ⟨hlen, hall⟩ := h
          refine ⟨p0, p1, hpk, by simpa using hlen, ?_⟩
          intro fk hfk
          have hm := List.all_eq_true.mp hall fk hfk
          cases hc : fk.columns with
          | nil => rw [hc] at hm; exact absurd hm (by simp)
          | cons c cs =>
            cases cs with
            | nil =>
              rw [hc] at hm
              refine ⟨c, rfl, ?_⟩
              simpa using hm
            | cons c2 cs2 => rw [hc] at hm; exact absurd hm (by simp)
        · rintro ⟨p0', p1', hpk', hlen, hall⟩
          rw [hpk] at hpk'
          have hpe : p0 = p0' ∧ p1 = p1' := by simpa using hpk'
          obtain ⟨he0, he1⟩ := hpe
          subst he0; subst he1
          rw [Bool.and_eq_true]
          refine ⟨by simpa using hlen, ?_⟩
          rw [List.all_eq_true]
          intro fk hfk
          obtain ⟨c, hc, hor⟩ := hall fk hfk
          rw [hc]
          rcases hor with hor | hor <;> simp [hor]
  · intro k hk
    unfold schemaMutationsMap at hok
    cases hb : buildEntities I ff tables with
    | error e =>
      rw [hb, Except_error_bind] at hok
      exact Except.noConfusion hok
    | ok a =>
      obtain ⟨m1, js⟩ := a
      rw [hb, Except_ok_bind] at hok
      have hsame := relationPass_ok_isSome hok k
      rw [hsame] at hk
      have hkeys := @buildFold_keys I ff tables ([], []) (m1, js) hb k hk
      rcases hkeys with hbase | hex
      · exact absurd hbase (by simp [lookupMut, lookupA_nil])
      · exact hex

/-- C2, witness: the amended characterization applied to the well-formed
join table `group_users` and the empty import. -/
theorem C2_join_classifier_witness :
    (schemaMutationsMap inflectEN mysqlField [] = .ok ([] : Mutations)) ∧
    ((isJoinTable guT = true ↔ codeJoinCond guT) ∧
      (∀ k, (lookupMut ([] : Mutations) k).isSome = true →
        ∃ t' ∈ ([] : List Table), t'.name = k ∧ isJoinTable t' = false)) :=
  ⟨rfl, C2_join_classifier inflectEN mysqlField guT [] [] rfl⟩

/-! ## Claim C10: a missing endpoint abandons the whole table -/

theorem isSome_none_eq {α : Type} {a b : Option α} (h : a.isSome = b.isSome)
    (hb : b = none) : a = none := by
  subst hb
  cases a
  · rfl
  · simp at h

theorem oneToXOpts_fks (t : Table) (x : List ForeignKey) (p c : String) :
    oneToXOpts { t with foreignKeys := x } p c = oneToXOpts t p c := by
  cases t
  rfl

theorem oneToXLoop_fks (I : Inflect) (t : Table) (x : List ForeignKey) :
    ∀ (fks : List ForeignKey) (m : Mutations),
      oneToXLoop I { t with foreignKeys := x } m fks = oneToXLoop I t m fks := by
  intro fks
  induction fks with
  | nil => intro m; rfl
  | cons fk rest ih =>
    intro m
    unfold oneToXLoop
    cases hc : fk.columns with
    | nil => exact ih m
    | cons c cs =>
      cases cs with
      | cons c2 cs2 => exact ih m
      | nil =>
        simp only [oneToXOpts_fks]
        cases hp : lookupMut m fk.refTableName <;>
          cases hch : lookupMut m t.name <;> simp only [hp, hch]
        exact ih _

/-- C10 (confirmed): when the one-to-X pass meets a single-column foreign
key whose parent or child entity is missing, it returns from the whole
table: the result is as if every foreign key from that point on were
absent, including later ones with both endpoints present. -/
theorem C10_early_return (I : Inflect) (m : Mutations) (t : Table)
    (pre post : List ForeignKey) (fk : ForeignKey) (c : Column)
    (hfks : t.foreignKeys = pre ++ fk :: post) (hc : fk.columns = [c])
    (hmiss : lookupMut m fk.refTableName = none ∨ lookupMut m t.name = none) :
    upsertOneToX I m t = upsertOneToX I m { t with foreignKeys := pre } := by
  have key : ∀ (pre' : List ForeignKey) (m' : Mutations),
      (lookupMut m' fk.refTableName = none ∨ lookupMut m' t.name = none) →
      oneToXLoop I t m' (pre' ++ fk :: post) = oneToXLoop I t m' pre' := by
    intro pre'
    induction pre' with
    | nil =>
      intro m' hm
      rw [List.nil_append]
      unfold oneToXLoop
      rw [hc]
      dsimp only
      rcases hm with hm | hm
      · rw [hm]
      · rw [hm]
        cases lookupMut m' fk.refTableName <;> rfl
    | cons fk' rest ih =>
      intro m' hm
      rw [List.cons_append]
      unfold oneToXLoop
      cases hc' : fk'.columns with
      | nil => exact ih m' hm
      | cons c' cs' =>
        cases cs' with
        | cons c2 cs2 => exact ih m' hm
        | nil =>
          cases hp : lookupMut m' fk'.refTableName <;>
            cases hch : lookupMut m' t.name <;> simp only [hp, hch]
          refine ih _ ?_
          rcases hm with hm | hm
          · exact Or.inl (isSome_none_eq
              (upsertRelation_isSome I m' fk'.refTableName t.name _ fk.refTableName) hm)
          · exact Or.inr (isSome_none_eq
              (upsertRelation_isSome I m' fk'.refTableName t.name _ t.name) hm)
  have hpre : ({ t with foreignKeys := pre } : Table).foreignKeys = pre := by
    cases t; rfl
  rw [upsertOneToX, upsertOneToX, hfks, hpre]
  cases pre with
  | nil =>
    rw [List.nil_append]
    have h1 : (fk :: post).isEmpty = false := rfl
    have h2 : (List.isEmpty ([] : List ForeignKey)) = true := rfl
    rw [h1, h2]
    simp only [Bool.false_eq_true, if_false, if_pos rfl]
    exact key [] m hmiss
  | cons f0 pre' =>
    have h1 : ((f0 :: pre') ++ fk :: post).isEmpty = false := rfl
    have h2 : (f0 :: pre').isEmpty = false := rfl
    rw [h1, h2]
    simp only [Bool.false_eq_true, if_false]
    exact (key (f0 :: pre') m hmiss).trans
      (oneToXLoop_fks I t (f0 :: pre') (f0 :: pre') m).symm

/-- A plain `User` entity used as map content in witnesses. -/
def userNodeW : UpsertSchema := { sname := "User" }

/-- A plain `Card` entity used as map content in witnesses. -/
def cardNodeW : UpsertSchema := { sname := "Card" }

/-- A two-entity map holding `users` and `cards`. -/
def mW : Mutations := [("users", userNodeW), ("cards", cardNodeW)]

/-- `cards` with two single-column foreign keys: the first one points at a
table absent from the entity map, the second one at the present `users`. -/
def cardsTwoFkT : Table :=
  { name := "cards", columns := [colId, colUser, colUserCard],
    primaryKey := some [colId],
    foreignKeys := [{ columns := [colUser], refTableName := "missing" },
                    { columns := [colUserCard], refTableName := "users" }] }

/-- C10, witness: on a table whose first foreign key references a missing
entity, the pass produces the same map as if the table had no foreign
keys at all, though the second key's endpoints are both present. -/
theorem C10_early_return_witness :
    (cardsTwoFkT.foreignKeys =
      [] ++ ({ columns := [colUser], refTableName := "missing" } : ForeignKey) ::
        [{ columns := [colUserCard], refTableName := "users" }] ∧
      ({ columns := [colUser], refTableName := "missing" } : ForeignKey).columns = [colUser] ∧
      lookupMut mW "missing" = none) ∧
    upsertOneToX inflectEN mW cardsTwoFkT =
      upsertOneToX inflectEN mW { cardsTwoFkT with foreignKeys := [] } :=
  ⟨⟨rfl, rfl, rfl⟩,
    C10_early_return inflectEN mW cardsTwoFkT []
      [{ columns := [colUserCard], refTableName := "users" }]
      { columns := [colUser], refTableName := "missing" } colUser rfl rfl (Or.inl rfl)⟩

/-! ## Entity builder lemmas (claims C3, C4 and C6) -/

/-- The key list of a fields map. -/
def keysOf (fs : Fields) : List String := fs.map Prod.fst

theorem resolvePrimaryKey_name {ff : Column → Except String Field} {t : Table}
    {f : Field} (h : resolvePrimaryKey ff t = .ok f) : f.name = "id" := by
  unfold resolvePrimaryKey at h
  cases hpk : t.primaryKey <;> rw [hpk] at h
  · exact Except.noConfusion h
  · rename_i ps
    cases ps with
    | nil => exact Except.noConfusion h
    | cons p ps1 =>
      cases ps1 with
      | cons p1 ps2 => exact Except.noConfusion h
      | nil =>
        dsimp only at h
        cases hffp : ff p <;> rw [hffp] at h
        · rw [Except_error_bind] at h
          exact Except.noConfusion h
        · rename_i f0
          rw [Except_ok_bind] at h
          cases hn : f0.name != "id"
          · rw [hn] at h
            simp only [Bool.false_eq_true, if_false, Except_pure] at h
            cases h
            simpa using hn
          · rw [hn] at h
            simp only [if_true, Except_pure] at h
            cases h
            rfl

theorem resolve_ok_of {ff : Column → Except String Field} {t : Table}
    {p : Column} {f0 : Field} (hpk : t.primaryKey = some [p])
    (hffp : ff p = .ok f0) :
    resolvePrimaryKey ff t =
      .ok (if f0.name != "id" then { f0 with storageKey := f0.name, name := "id" }
        else f0) := by
  unfold resolvePrimaryKey
  rw [hpk]
  dsimp only
  rw [hffp, Except_ok_bind]
  cases hn : f0.name != "id" <;> simp <;> rfl

theorem resolve_err_of_bad_pk {ff : Column → Except String Field} {t : Table}
    (h : ∀ p, t.primaryKey ≠ some [p]) :
    resolvePrimaryKey ff t = .error invalidPkErr := by
  unfold resolvePrimaryKey
  cases hpk : t.primaryKey
  · rfl
  · rename_i ps
    cases ps with
    | nil => rfl
    | cons p ps1 =>
      cases ps1 with
      | nil => exact absurd hpk (h p)
      | cons p1 ps2 => rfl

theorem resolve_err_of_ff {ff : Column → Except String Field} {t : Table}
    {p : Column} (hpk : t.primaryKey = some [p])
    (hffp : isErrE (ff p) = true) :
    isErrE (resolvePrimaryKey ff t) = true := by
  unfold resolvePrimaryKey
  rw [hpk]
  dsimp only
  cases hf : ff p <;> rw [hf] at hffp
  · rw [Except_error_bind]
    rfl
  · exact absurd hffp (by simp [isErrE])

/-! ### Key presence through the four phases of upsertNode -/

theorem hasKey_append_left {fs : Fields} {k : String}
    (h : hasKey fs k = true) (l : Fields) : hasKey (fs ++ l) k = true := by
  unfold hasKey at *
  rw [lookupA_append]
  cases hv : lookupA fs k
  · rw [hv] at h; simp at h
  · simp [hv, Option.orElse]

theorem lookupA_append_left {fs l : Fields} {k : String}
    (h : hasKey fs k = true) : lookupA (fs ++ l) k = lookupA fs k := by
  unfold hasKey at h
  rw [lookupA_append]
  cases hv : lookupA fs k
  · rw [hv] at h; simp at h
  · simp [hv, Option.orElse]

theorem hasKey_addField {fs : Fields} {k k' : String} {f : Field} :
    hasKey (addField fs k' f) k =
      (hasKey fs k || (k == k' && !(hasKey fs k'))) := by
  unfold addField
  cases hk' : hasKey fs k'
  · simp only [Bool.false_eq_true, if_false]
    by_cases he : k = k'
    · subst he
      unfold hasKey at *
      rw [lookupA_append]
      cases hv : lookupA fs k
      · simp [hv, lookupA_cons, Option.orElse]
      · rw [hv] at hk'; simp at hk'
    · unfold hasKey
      rw [lookupA_append]
      have hb : ((k' : String) == k) = false := beq_eq_false_iff_ne.mpr (Ne.symm he)
      cases hv : lookupA fs k <;>
        simp [hv, lookupA_cons, lookupA_nil, hb, Option.orElse, he]
  · simp only [if_true]
    simp [hk']

theorem hasKey_setUniqueAt (fs : Fields) (k k' : String) :
    hasKey (setUniqueAt fs k') k = hasKey fs k := by
  unfold hasKey setUniqueAt
  rw [lookupA_updateA_isSome]

theorem hasKey_setOptionalAt (fs : Fields) (k k' : String) :
    hasKey (setOptionalAt fs k') k = hasKey fs k := by
  unfold hasKey setOptionalAt
  rw [lookupA_updateA_isSome]

theorem isErrE_false_iff {α : Type} {e : Except String α} :
    isErrE e = false ↔ ∃ a, e = .ok a := by
  cases e <;> simp [isErrE]

/-- The parts of a field untouched by the unique-index loop. -/
def fShape (f : Field) : String × Bool × String := (f.name, f.optional, f.storageKey)

/-- The parts of a field untouched by the foreign-key loop. -/
def gShape (f : Field) : String × Bool × String := (f.name, f.unique, f.storageKey)

/-- Some field stored under `k` is optional. -/
def OptAt (fs : Fields) (k : String) : Prop :=
  ∃ p ∈ fs, p.1 = k ∧ Field.optional p.2 = true

theorem filter_updateA_length (fs : Fields) (k s : String) (g : Field → Field) :
    ((updateA fs k g).filter (fun p => p.1 == s)).length =
      (fs.filter (fun p => p.1 == s)).length := by
  induction fs with
  | nil => rfl
  | cons p rest ih =>
    have hfst : ((if p.1 == k then (p.1, g p.2) else p) : String × Field).1 = p.1 := by
      by_cases hk : p.1 = k <;> simp [hk]
    simp only [updateA, List.map_cons, List.filter_cons, hfst] at *
    cases hb : p.1 == s <;> simp [hb] <;> simpa using ih

theorem names_updateA {fs : Fields} {k : String} {g : Field → Field}
    (hg : ∀ f, Field.name (g f) = Field.name f)
    (hp : ∀ p ∈ fs, Field.name p.2 = p.1) :
    ∀ p ∈ updateA fs k g, Field.name p.2 = p.1 := by
  intro p hpin
  rcases mem_updateA hpin with ⟨hold, _⟩ | ⟨v, hv, hpe⟩
  · exact hp p hold
  · rw [hpe]
    dsimp only
    rw [hg]
    exact hp (k, v) hv

theorem shape_setUniqueAt (fs : Fields) (k k' : String) :
    (lookupA (setUniqueAt fs k') k).map fShape = (lookupA fs k).map fShape := by
  unfold setUniqueAt
  by_cases hk : k = k'
  · subst hk
    rw [lookupA_updateA_self]
    cases lookupA fs k <;> rfl
  · rw [lookupA_updateA_ne _ _ _ _ hk]

theorem shape_setOptionalAt (fs : Fields) (k k' : String) :
    (lookupA (setOptionalAt fs k') k).map gShape = (lookupA fs k).map gShape := by
  unfold setOptionalAt
  by_cases hk : k = k'
  · subst hk
    rw [lookupA_updateA_self]
    cases lookupA fs k <;> rfl
  · rw [lookupA_updateA_ne _ _ _ _ hk]

theorem optAt_setOptionalAt_mono {fs : Fields} {k : String} (k' : String)
    (h : OptAt fs k) : OptAt (setOptionalAt fs k') k := by
  obtain ⟨p, hpin, hpk, hpo⟩ := h
  by_cases hk : p.1 = k'
  · refine ⟨(p.1, { p.2 with optional := true }), ?_, hpk, rfl⟩
    unfold setOptionalAt updateA
    have : (if p.1 == k' then (p.1, { p.2 with optional := true }) else p) =
        (p.1, { p.2 with optional := true }) := by
      rw [if_pos (by simp [hk])]
    rw [← this]
    exact List.mem_map_of_mem _ hpin
  · exact ⟨p, mem_updateA_of_mem_ne hpin hk, hpk, hpo⟩

theorem optAt_setOptionalAt_self {fs : Fields} {k : String}
    (h : hasKey fs k = true) : OptAt (setOptionalAt fs k) k := by
  obtain ⟨v, hv⟩ := (lookupA_isSome_iff fs k).mp h
  refine ⟨(k, { v with optional := true }), ?_, rfl, rfl⟩
  unfold setOptionalAt updateA
  have : (if ((k, v) : String × Field).1 == k then
      (((k, v) : String × Field).1, { ((k, v) : String × Field).2 with optional := true })
    else (k, v)) = (k, { v with optional := true }) := by
    rw [if_pos (by simp)]
  rw [← this]
  exact List.mem_map_of_mem _ hv

/-! ### Unique-index loop lemmas -/

theorem uniqIdxGo_facts :
    ∀ {idxs : List Index} {fs0 : Fields},
      (∀ idx ∈ idxs, idx.unique = true → ∀ c0, idx.parts = [c0] →
        hasKey fs0 c0.name = true) →
      ∃ fs2, uniqIdxGo idxs fs0 = .ok fs2 ∧
        (∀ k, hasKey fs2 k = hasKey fs0 k) ∧
        (∀ k, (lookupA fs2 k).map fShape = (lookupA fs0 k).map fShape) ∧
        ((∀ p ∈ fs0, Field.name p.2 = p.1) → ∀ p ∈ fs2, Field.name p.2 = p.1) ∧
        (∀ s, (fs2.filter (fun p => p.1 == s)).length =
          (fs0.filter (fun p => p.1 == s)).length) := by
  intro idxs
  induction idxs with
  | nil =>
    intro fs0 _
    exact ⟨fs0, rfl, fun _ => rfl, fun _ => rfl, fun h => h, fun _ => rfl⟩
  | cons idx rest ih =>
    intro fs0 hpres
    cases hu : idx.unique with
    | false =>
      have hstep : uniqIdxStep fs0 idx = .ok fs0 := by
        unfold uniqIdxStep
        rw [hu]
        rcases idx.parts with _ | ⟨c, _ | ⟨c2, cs⟩⟩ <;> rfl
      obtain ⟨fs2, h2, hkeys, hshape, hnames, hfilter⟩ :=
        ih (fun i hi => hpres i (List.mem_cons_of_mem _ hi))
      refine ⟨fs2, ?_, hkeys, hshape, hnames, hfilter⟩
      rw [uniqIdxGo, List.foldlM_cons, hstep, Except_ok_bind]
      exact h2
    | true =>
      rcases hps : idx.parts with _ | ⟨c0, _ | ⟨c2, cs⟩⟩
      · have hstep : uniqIdxStep fs0 idx = .ok fs0 := by
          unfold uniqIdxStep
          rw [hu, hps]
          rfl
        obtain ⟨fs2, h2, hkeys, hshape, hnames, hfilter⟩ :=
          ih (fun i hi => hpres i (List.mem_cons_of_mem _ hi))
        refine ⟨fs2, ?_, hkeys, hshape, hnames, hfilter⟩
        rw [uniqIdxGo, List.foldlM_cons, hstep, Except_ok_bind]
        exact h2
      · have hk := hpres idx (List.mem_cons_self idx rest) hu c0 hps
        have hstep : uniqIdxStep fs0 idx = .ok (setUniqueAt fs0 c0.name) := by
          unfold uniqIdxStep
          rw [hu, hps]
          dsimp only
          rw [hk, if_pos rfl]
          rfl
        obtain ⟨fs2, h2, hkeys, hshape, hnames, hfilter⟩ :=
          ih (fun i hi hu' c0' hp' => by
            rw [hasKey_setUniqueAt]
            exact hpres i (List.mem_cons_of_mem _ hi) hu' c0' hp')
        refine ⟨fs2, ?_, ?_, ?_, ?_, ?_⟩
        · rw [uniqIdxGo, List.foldlM_cons, hstep, Except_ok_bind]
          exact h2
        · intro k
          rw [hkeys k, hasKey_setUniqueAt]
        · intro k
          rw [hshape k, shape_setUniqueAt]
        · intro hp
          exact hnames (names_updateA (fun f => rfl) hp)
        · intro s
          rw [hfilter s]
          exact filter_updateA_length fs0 c0.name s _
      · have hstep : uniqIdxStep fs0 idx = .ok fs0 := by
          unfold uniqIdxStep
          rw [hu, hps]
          rfl
        obtain ⟨fs2, h2, hkeys, hshape, hnames, hfilter⟩ :=
          ih (fun i hi => hpres i (List.mem_cons_of_mem _ hi))
        refine ⟨fs2, ?_, hkeys, hshape, hnames, hfilter⟩
        rw [uniqIdxGo, List.foldlM_cons, hstep, Except_ok_bind]
        exact h2

/-! ### Foreign-key loop lemmas -/

theorem fkColsGo_facts :
    ∀ {cols : List Column} {fs0 : Fields},
      (∀ c ∈ cols, hasKey fs0 c.name = true) →
      ∃ fs', cols.foldlM fkColStep fs0 = .ok fs' ∧
        (∀ k, hasKey fs' k = hasKey fs0 k) ∧
        (∀ k, (lookupA fs' k).map gShape = (lookupA fs0 k).map gShape) ∧
        ((∀ p ∈ fs0, Field.name p.2 = p.1) → ∀ p ∈ fs', Field.name p.2 = p.1) ∧
        (∀ s, (fs'.filter (fun p => p.1 == s)).length =
          (fs0.filter (fun p => p.1 == s)).length) ∧
        (∀ k, (∀ c ∈ cols, c.name ≠ k) → lookupA fs' k = lookupA fs0 k) ∧
        (∀ k, OptAt fs0 k → OptAt fs' k) ∧
        (∀ c ∈ cols, OptAt fs' c.name) := by
  intro cols
  induction cols with
  | nil =>
    intro fs0 _
    exact ⟨fs0, rfl, fun _ => rfl, fun _ => rfl, fun h => h, fun _ => rfl,
      fun _ _ => rfl, fun _ h => h, fun c hc => absurd hc (List.not_mem_nil c)⟩
  | cons c0 rest ih =>
    intro fs0 hpres
    have hk0 := hpres c0 (List.mem_cons_self c0 rest)
    have hstep : fkColStep fs0 c0 = .ok (setOptionalAt fs0 c0.name) := by
      unfold fkColStep
      rw [hk0, if_pos rfl]
      rfl
    obtain ⟨fs', h', hkeys, hshape, hnames, hfilter, huntouched, hmono, hestab⟩ :=
      ih (fun c hc => by
        rw [hasKey_setOptionalAt]
        exact hpres c (List.mem_cons_of_mem _ hc))
    refine ⟨fs', ?_, ?_, ?_, ?_, ?_, ?_, ?_, ?_⟩
    · rw [List.foldlM_cons, hstep, Except_ok_bind]
      exact h'
    · intro k
      rw [hkeys k, hasKey_setOptionalAt]
    · intro k
      rw [hshape k, shape_setOptionalAt]
    · intro hp
      exact hnames (names_updateA (fun f => rfl) hp)
    · intro s
      rw [hfilter s]
      exact filter_updateA_length fs0 c0.name s _
    · intro k hnone
      rw [huntouched k (fun c hc => hnone c (List.mem_cons_of_mem _ hc))]
      unfold setOptionalAt
      exact lookupA_updateA_ne _ _ _ _
        (Ne.symm (hnone c0 (List.mem_cons_self c0 rest)))
    · intro k h
      exact hmono k (optAt_setOptionalAt_mono c0.name h)
    · intro c hc
      rcases List.mem_cons.mp hc with heq | hmem
      · subst heq
        exact hmono c.name (optAt_setOptionalAt_self hk0)
      · exact hestab c hmem

theorem fkOptGo_facts :
    ∀ {fks : List ForeignKey} {fs0 : Fields},
      (∀ fk ∈ fks, ∀ c ∈ fk.columns, hasKey fs0 c.name = true) →
      ∃ fs', fkOptGo fks fs0 = .ok fs' ∧
        (∀ k, hasKey fs' k = hasKey fs0 k) ∧
        (∀ k, (lookupA fs' k).map gShape = (lookupA fs0 k).map gShape) ∧
        ((∀ p ∈ fs0, Field.name p.2 = p.1) → ∀ p ∈ fs', Field.name p.2 = p.1) ∧
        (∀ s, (fs'.filter (fun p => p.1 == s)).length =
          (fs0.filter (fun p => p.1 == s)).length) ∧
        (∀ k, (∀ fk ∈ fks, ∀ c ∈ fk.columns, c.name ≠ k) →
          lookupA fs' k = lookupA fs0 k) ∧
        (∀ k, OptAt fs0 k → OptAt fs' k) ∧
        (∀ fk ∈ fks, ∀ c ∈ fk.columns, OptAt fs' c.name) := by
  intro fks
  induction fks with
  | nil =>
    intro fs0 _
    exact ⟨fs0, rfl, fun _ => rfl, fun _ => rfl, fun h => h, fun _ => rfl,
      fun _ _ => rfl, fun _ h => h, fun fk hfk => absurd hfk (List.not_mem_nil fk)⟩
  | cons fk0 rest ih =>
    intro fs0 hpres
    obtain ⟨fs1, h1, hkeys1, hshape1, hnames1, hfilter1, huntouched1, hmono1, hestab1⟩ :=
      @fkColsGo_facts fk0.columns fs0 (hpres fk0 (List.mem_cons_self fk0 rest))
    obtain ⟨fs', h', hkeys, hshape, hnames, hfilter, huntouched, hmono, hestab⟩ :=
      ih (fun fk hfk c hc => by
        rw [hkeys1 c.name]
        exact hpres fk (List.mem_cons_of_mem _ hfk) c hc)
    refine ⟨fs', ?_, ?_, ?_, ?_, ?_, ?_, ?_, ?_⟩
    · rw [fkOptGo, List.foldlM_cons, h1, Except_ok_bind]
      exact h'
    · intro k
      rw [hkeys k, hkeys1 k]
    · intro k
      rw [hshape k, hshape1 k]
    · intro hp
      exact hnames (hnames1 hp)
    · intro s
      rw [hfilter s, hfilter1 s]
    · intro k hnone
      rw [huntouched k (fun fk hfk c hc =>
        hnone fk (List.mem_cons_of_mem _ hfk) c hc)]
      exact huntouched1 k
        (fun c hc => hnone fk0 (List.mem_cons_self fk0 rest) c hc)
    · intro k h
      exact hmono k (hmono1 k h)
    · intro fk hfk c hc
      rcases List.mem_cons.mp hfk with heq | hmem
      · subst heq
        exact hmono c.name (hestab1 c hc)
      · exact hestab fk hmem c hc

/-! ### Success inversion for the unique-index and foreign-key loops -/

theorem uniqIdxStep_ok_cases {fs fs' : Fields} {idx : Index}
    (h : uniqIdxStep fs idx = .ok fs') :
    fs' = fs ∨ ∃ c, idx.parts = [c] ∧ fs' = setUniqueAt fs c.name := by
  unfold uniqIdxStep at h
  cases hu : idx.unique <;> rw [hu] at h
  · rcases hp : idx.parts with _ | ⟨c, _ | ⟨c2, cs⟩⟩ <;> rw [hp] at h <;>
      exact Or.inl (Except.ok.inj h).symm
  · rcases hp : idx.parts with _ | ⟨c, _ | ⟨c2, cs⟩⟩ <;> rw [hp] at h
    · exact Or.inl (Except.ok.inj h).symm
    · dsimp only at h
      cases hk : hasKey fs c.name <;> rw [hk] at h
      · simp only [Bool.false_eq_true, if_false] at h
        exact Except.noConfusion h
      · rw [if_pos rfl] at h
        exact Or.inr ⟨c, rfl, (Except.ok.inj h).symm⟩
    · exact Or.inl (Except.ok.inj h).symm

theorem fkColStep_ok_cases {fs fs' : Fields} {c : Column}
    (h : fkColStep fs c = .ok fs') :
    hasKey fs c.name = true ∧ fs' = setOptionalAt fs c.name := by
  unfold fkColStep at h
  cases hk : hasKey fs c.name <;> rw [hk] at h
  · simp only [Bool.false_eq_true, if_false] at h
    exact Except.noConfusion h
  · rw [if_pos rfl] at h
    exact ⟨rfl, (Except.ok.inj h).symm⟩

theorem uniqIdxGo_ok_inv (P : Fields → Prop)
    (hP : ∀ fs k, P fs → P (setUniqueAt fs k)) :
    ∀ {idxs : List Index} {fs0 fs2 : Fields},
      uniqIdxGo idxs fs0 = .ok fs2 → P fs0 → P fs2 := by
  intro idxs
  induction idxs with
  | nil =>
    intro fs0 fs2 h hp
    cases h
    exact hp
  | cons idx rest ih =>
    intro fs0 fs2 h hp
    rw [uniqIdxGo, List.foldlM_cons] at h
    cases hs : uniqIdxStep fs0 idx <;> rw [hs] at h
    · rw [Except_error_bind] at h
      exact Except.noConfusion h
    · rw [Except_ok_bind] at h
      rcases uniqIdxStep_ok_cases hs with heq | ⟨c, _, heq⟩ <;> subst heq
      · exact ih h hp
      · exact ih h (hP fs0 c.name hp)

theorem fkColsGo_ok_inv (P : Fields → Prop) :
    ∀ {cols : List Column} {fs0 fs' : Fields},
      (∀ fs (c : Column), c ∈ cols → P fs → P (setOptionalAt fs c.name)) →
      cols.foldlM fkColStep fs0 = .ok fs' → P fs0 → P fs' := by
  intro cols
  induction cols with
  | nil =>
    intro fs0 fs' _ h hp
    cases h
    exact hp
  | cons c0 rest ih =>
    intro fs0 fs' hP h hp
    rw [List.foldlM_cons] at h
    cases hs : fkColStep fs0 c0 <;> rw [hs] at h
    · rw [Except_error_bind] at h
      exact Except.noConfusion h
    · rw [Except_ok_bind] at h
      obtain ⟨_, heq⟩ := fkColStep_ok_cases hs
      subst heq
      exact ih (fun fs c hc => hP fs c (List.mem_cons_of_mem _ hc)) h
        (hP fs0 c0 (List.mem_cons_self c0 rest) hp)

theorem fkOptGo_ok_inv (P : Fields → Prop) :
    ∀ {fks : List ForeignKey} {fs0 fs' : Fields},
      (∀ fs (fk : ForeignKey), fk ∈ fks → ∀ c ∈ fk.columns,
        P fs → P (setOptionalAt fs c.name)) →
      fkOptGo fks fs0 = .ok fs' → P fs0 → P fs' := by
  intro fks
  induction fks with
  | nil =>
    intro fs0 fs' _ h hp
    cases h
    exact hp
  | cons fk0 rest ih =>
    intro fs0 fs' hP h hp
    rw [fkOptGo, List.foldlM_cons] at h
    cases hs : fk0.columns.foldlM fkColStep fs0 <;> rw [hs] at h
    · rw [Except_error_bind] at h
      exact Except.noConfusion h
    · rw [Except_ok_bind] at h
      refine ih (fun fs fk hfk c hc => hP fs fk (List.mem_cons_of_mem _ hfk) c hc) h ?_
      exact fkColsGo_ok_inv P
        (fun fs c hc => hP fs fk0 (List.mem_cons_self fk0 rest) c hc) hs hp

theorem fkColsGo_ok_optAt {c : Column} :
    ∀ {cols : List Column} {fs0 fs' : Fields},
      cols.foldlM fkColStep fs0 = .ok fs' → c ∈ cols →
      OptAt fs' c.name := by
  intro cols
  induction cols with
  | nil =>
    intro fs0 fs' _ hin
    exact absurd hin (List.not_mem_nil c)
  | cons c0 rest ih =>
    intro fs0 fs' h hin
    rw [List.foldlM_cons] at h
    cases hs : fkColStep fs0 c0 <;> rw [hs] at h
    · rw [Except_error_bind] at h
      exact Except.noConfusion h
    · rw [Except_ok_bind] at h
      obtain ⟨hk0, heq⟩ := fkColStep_ok_cases hs
      subst heq
      by_cases hc0 : c = c0
      · subst hc0
        exact fkColsGo_ok_inv (fun fs => OptAt fs c.name)
          (fun fs c' _ hp => optAt_setOptionalAt_mono c'.name hp) h
          (optAt_setOptionalAt_self hk0)
      · rcases List.mem_cons.mp hin with heq | hmem
        · exact absurd heq hc0
        · exact ih h hmem

theorem fkOptGo_ok_optAt {fk : ForeignKey} {c : Column} :
    ∀ {fks : List ForeignKey} {fs0 fs' : Fields},
      fkOptGo fks fs0 = .ok fs' → fk ∈ fks → c ∈ fk.columns →
      OptAt fs' c.name := by
  intro fks
  induction fks with
  | nil =>
    intro fs0 fs' _ hin
    exact absurd hin (List.not_mem_nil fk)
  | cons fk0 rest ih =>
    intro fs0 fs' h hin hc
    rw [fkOptGo, List.foldlM_cons] at h
    cases hs : fk0.columns.foldlM fkColStep fs0 <;> rw [hs] at h
    · rw [Except_error_bind] at h
      exact Except.noConfusion h
    · rw [Except_ok_bind] at h
      by_cases hfk0 : fk = fk0
      · subst hfk0
        refine fkOptGo_ok_inv (fun fs => OptAt fs c.name)
          (fun fs fk' _ c' _ hp => optAt_setOptionalAt_mono c'.name hp) h ?_
        exact fkColsGo_ok_optAt hs hc
      · rcases List.mem_cons.mp hin with heq | hmem
        · exact absurd heq hfk0
        · exact ih h hmem hc

/-! ### Column loop lemmas -/

theorem addColStep_skip {ff : Column → Except String Field} {t : Table}
    {fs : Fields} {c : Column} (h : skipPkCol t c = true) :
    addColStep ff t fs c = .ok fs := by
  unfold addColStep
  rw [h, if_pos rfl]
  rfl

theorem addColStep_ok {ff : Column → Except String Field} {t : Table}
    {fs : Fields} {c : Column} {f : Field} (h : skipPkCol t c = false)
    (hf : ff c = .ok f) :
    addColStep ff t fs c = .ok (addField fs c.name f) := by
  unfold addColStep
  rw [h]
  simp only [Bool.false_eq_true, if_false]
  rw [hf, Except_ok_bind, Except_pure]

theorem addColStep_err {ff : Column → Except String Field} {t : Table}
    {fs : Fields} {c : Column} {e : String} (h : skipPkCol t c = false)
    (hf : ff c = .error e) :
    addColStep ff t fs c = .error e := by
  unfold addColStep
  rw [h]
  simp only [Bool.false_eq_true, if_false]
  rw [hf, Except_error_bind]

theorem addColsGo_ok {ff : Column → Except String Field} {t : Table} :
    ∀ {cols : List Column} (fs0 : Fields),
      (∀ c ∈ cols, skipPkCol t c = false → isErrE (ff c) = false) →
      ∃ fs1, addColsGo ff t cols fs0 = .ok fs1 := by
  intro cols
  induction cols with
  | nil => intro fs0 _; exact ⟨fs0, rfl⟩
  | cons c0 rest ih =>
    intro fs0 hok
    rw [addColsGo, List.foldlM_cons]
    cases hsk : skipPkCol t c0 with
    | true =>
      rw [addColStep_skip hsk, Except_ok_bind]
      exact ih fs0 (fun c hc => hok c (List.mem_cons_of_mem _ hc))
    | false =>
      obtain ⟨f, hf⟩ := isErrE_false_iff.mp
        (hok c0 (List.mem_cons_self c0 rest) hsk)
      rw [addColStep_ok hsk hf, Except_ok_bind]
      exact ih _ (fun c hc => hok c (List.mem_cons_of_mem _ hc))

theorem addColsGo_err {ff : Column → Except String Field} {t : Table}
    {c : Column} (hsk : skipPkCol t c = false) (hff : isErrE (ff c) = true) :
    ∀ {cols : List Column} (fs0 : Fields), c ∈ cols →
      isErrE (addColsGo ff t cols fs0) = true := by
  intro cols
  induction cols with
  | nil => intro fs0 hin; exact absurd hin (List.not_mem_nil c)
  | cons c0 rest ih =>
    intro fs0 hin
    rw [addColsGo, List.foldlM_cons]
    cases hs : addColStep ff t fs0 c0 with
    | error e => rw [Except_error_bind]; rfl
    | ok fs' =>
      rw [Except_ok_bind]
      rcases List.mem_cons.mp hin with heq | hmem
      · subst heq
        obtain ⟨e, he⟩ : ∃ e, ff c = .error e := by
          cases hv : ff c
          · exact ⟨_, rfl⟩
          · rw [hv] at hff; exact absurd hff (by simp [isErrE])
        rw [addColStep_err hsk he] at hs
        exact Except.noConfusion hs
      · exact ih fs' hmem

theorem addColsGo_hasKey {ff : Column → Except String Field} {t : Table} :
    ∀ {cols : List Column} {fs0 fs1 : Fields},
      addColsGo ff t cols fs0 = .ok fs1 → ∀ k,
      hasKey fs1 k =
        (hasKey fs0 k || cols.any (fun c => !skipPkCol t c && c.name == k)) := by
  intro cols
  induction cols with
  | nil =>
    intro fs0 fs1 h k
    cases h
    simp
  | cons c0 rest ih =>
    intro fs0 fs1 h k
    rw [addColsGo, List.foldlM_cons] at h
    cases hs : addColStep ff t fs0 c0 <;> rw [hs] at h
    · rw [Except_error_bind] at h
      exact Except.noConfusion h
    · rw [Except_ok_bind] at h
      rename_i fs'
      rw [List.any_cons]
      cases hsk : skipPkCol t c0 with
      | true =>
        rw [addColStep_skip hsk] at hs
        cases hs
        rw [ih h k]
        simp [hsk]
      | false =>
        obtain ⟨f, hf⟩ : ∃ f, ff c0 = .ok f := by
          cases hv : ff c0
          · rw [addColStep_err hsk hv] at hs
            exact Except.noConfusion hs
          · exact ⟨_, rfl⟩
        rw [addColStep_ok hsk hf] at hs
        cases hs
        rw [ih h k, hasKey_addField]
        by_cases hk : k = c0.name
        · subst hk
          cases ha : hasKey fs0 c0.name <;> simp [hsk, ha]
        · have h1 : (k == c0.name) = false := beq_eq_false_iff_ne.mpr hk
          have h2 : (c0.name == k) = false :=
            beq_eq_false_iff_ne.mpr (Ne.symm hk)
          rw [h1, h2]
          simp [hsk]

theorem addColsGo_lookup_old {ff : Column → Except String Field} {t : Table}
    {k : String} :
    ∀ {cols : List Column} {fs0 fs1 : Fields},
      addColsGo ff t cols fs0 = .ok fs1 → hasKey fs0 k = true →
      lookupA fs1 k = lookupA fs0 k := by
  intro cols
  induction cols with
  | nil =>
    intro fs0 fs1 h _
    cases h
    rfl
  | cons c0 rest ih =>
    intro fs0 fs1 h hk
    rw [addColsGo, List.foldlM_cons] at h
    cases hs : addColStep ff t fs0 c0 <;> rw [hs] at h
    · rw [Except_error_bind] at h
      exact Except.noConfusion h
    · rw [Except_ok_bind] at h
      rename_i fs'
      cases hsk : skipPkCol t c0 with
      | true =>
        rw [addColStep_skip hsk] at hs
        cases hs
        exact ih h hk
      | false =>
        obtain ⟨f, hf⟩ : ∃ f, ff c0 = .ok f := by
          cases hv : ff c0
          · rw [addColStep_err hsk hv] at hs
            exact Except.noConfusion hs
          · exact ⟨_, rfl⟩
        rw [addColStep_ok hsk hf] at hs
        cases hs
        have hk' : hasKey (addField fs0 c0.name f) k = true := by
          rw [hasKey_addField, hk]
          rfl
        rw [ih h hk']
        unfold addField
        cases hc : hasKey fs0 c0.name
        · simp only [Bool.false_eq_true, if_false]
          exact lookupA_append_left hk
        · rw [if_pos rfl]

theorem addColsGo_lookup_new {ff : Column → Except String Field} {t : Table}
    {c : Column} {f : Field}
    (hsk : skipPkCol t c = false) (hf : ff c = .ok f) :
    ∀ {cols : List Column} {fs0 fs1 : Fields},
      addColsGo ff t cols fs0 = .ok fs1 → c ∈ cols →
      (∀ c' ∈ cols, c'.name = c.name → c' = c) →
      hasKey fs0 c.name = false →
      lookupA fs1 c.name = some f := by
  intro cols
  induction cols with
  | nil =>
    intro fs0 fs1 _ hin
    exact absurd hin (List.not_mem_nil c)
  | cons c0 rest ih =>
    intro fs0 fs1 h hin huniq hk
    rw [addColsGo, List.foldlM_cons] at h
    cases hs : addColStep ff t fs0 c0 <;> rw [hs] at h
    · rw [Except_error_bind] at h
      exact Except.noConfusion h
    · rw [Except_ok_bind] at h
      rename_i fs'
      by_cases hc0 : c0 = c
      · subst hc0
        rw [addColStep_ok hsk hf] at hs
        cases hs
        have hl : lookupA (addField fs0 c0.name f) c0.name = some f := by
          unfold addField hasKey
          unfold hasKey at hk
          rw [if_neg (by rw [hk]; simp), lookupA_append]
          have hnone : lookupA fs0 c0.name = none := by
            cases hv : lookupA fs0 c0.name
            · rfl
            · rw [hv] at hk; simp at hk
          simp [hnone, lookupA_cons, Option.orElse]
        have hk' : hasKey (addField fs0 c0.name f) c0.name = true := by
          unfold hasKey
          rw [hl]
          rfl
        rw [addColsGo_lookup_old h hk']
        exact hl
      · have hmem : c ∈ rest := by
          rcases List.mem_cons.mp hin with heq | hmem
          · exact absurd heq.symm hc0
          · exact hmem
        have hne : c0.name ≠ c.name := fun he =>
          hc0 (huniq c0 (List.mem_cons_self c0 rest) he)
        cases hsk0 : skipPkCol t c0 with
        | true =>
          rw [addColStep_skip hsk0] at hs
          cases hs
          exact ih h hmem (fun c' hc' => huniq c' (List.mem_cons_of_mem _ hc')) hk
        | false =>
          obtain ⟨f0, hf0⟩ : ∃ f0, ff c0 = .ok f0 := by
            cases hv : ff c0
            · rw [addColStep_err hsk0 hv] at hs
              exact Except.noConfusion hs
            · exact ⟨_, rfl⟩
          rw [addColStep_ok hsk0 hf0] at hs
          cases hs
          refine ih h hmem (fun c' hc' => huniq c' (List.mem_cons_of_mem _ hc')) ?_
          rw [hasKey_addField, hk]
          have hb : (c.name == c0.name) = false :=
            beq_eq_false_iff_ne.mpr (Ne.symm hne)
          rw [hb]
          rfl

theorem addColsGo_idfilter {ff : Column → Except String Field} {t : Table} :
    ∀ {cols : List Column} {fs0 fs1 : Fields},
      addColsGo ff t cols fs0 = .ok fs1 → hasKey fs0 "id" = true →
      (fs1.filter (fun p => p.1 == "id")).length =
        (fs0.filter (fun p => p.1 == "id")).length := by
  intro cols
  induction cols with
  | nil =>
    intro fs0 fs1 h _
    cases h
    rfl
  | cons c0 rest ih =>
    intro fs0 fs1 h hk
    rw [addColsGo, List.foldlM_cons] at h
    cases hs : addColStep ff t fs0 c0 <;> rw [hs] at h
    · rw [Except_error_bind] at h
      exact Except.noConfusion h
    · rw [Except_ok_bind] at h
      rename_i fs'
      cases hsk : skipPkCol t c0 with
      | true =>
        rw [addColStep_skip hsk] at hs
        cases hs
        exact ih h hk
      | false =>
        obtain ⟨f, hf⟩ : ∃ f, ff c0 = .ok f := by
          cases hv : ff c0
          · rw [addColStep_err hsk hv] at hs
            exact Except.noConfusion hs
          · exact ⟨_, rfl⟩
        rw [addColStep_ok hsk hf] at hs
        cases hs
        have hk' : hasKey (addField fs0 c0.name f) "id" = true := by
          rw [hasKey_addField, hk]
          rfl
        rw [ih h hk']
        unfold addField
        cases hc : hasKey fs0 c0.name
        · simp only [Bool.false_eq_true, if_false]
          have hne : (c0.name == "id") = false := by
            cases hbe : c0.name == "id"
            · rfl
            · have : c0.name = "id" := by simpa using hbe
              rw [this] at hc
              rw [hc] at hk
              exact absurd hk (by simp)
          rw [List.filter_append]
          simp [hne]
        · rw [if_pos rfl]

theorem addColsGo_names {ff : Column → Except String Field} {t : Table}
    (hname : ∀ c f, ff c = .ok f → f.name = c.name) :
    ∀ {cols : List Column} {fs0 fs1 : Fields},
      addColsGo ff t cols fs0 = .ok fs1 →
      (∀ p ∈ fs0, Field.name p.2 = p.1) →
      ∀ p ∈ fs1, Field.name p.2 = p.1 := by
  intro cols
  induction cols with
  | nil =>
    intro fs0 fs1 h hp
    cases h
    exact hp
  | cons c0 rest ih =>
    intro fs0 fs1 h hp
    rw [addColsGo, List.foldlM_cons] at h
    cases hs : addColStep ff t fs0 c0 <;> rw [hs] at h
    · rw [Except_error_bind] at h
      exact Except.noConfusion h
    · rw [Except_ok_bind] at h
      rename_i fs'
      cases hsk : skipPkCol t c0 with
      | true =>
        rw [addColStep_skip hsk] at hs
        cases hs
        exact ih h hp
      | false =>
        obtain ⟨f, hf⟩ : ∃ f, ff c0 = .ok f := by
          cases hv : ff c0
          · rw [addColStep_err hsk hv] at hs
            exact Except.noConfusion hs
          · exact ⟨_, rfl⟩
        rw [addColStep_ok hsk hf] at hs
        cases hs
        refine ih h ?_
        intro p hpin
        unfold addField at hpin
        cases hc : hasKey fs0 c0.name <;> rw [hc] at hpin
        · simp only [Bool.false_eq_true, if_false] at hpin
          rcases List.mem_append.mp hpin with hold | hnew
          · exact hp p hold
          · have hpe : p = (c0.name, f) := by simpa using hnew
            rw [hpe]
            exact hname c0 f hf
        · rw [if_pos rfl] at hpin
          exact hp p hpin

theorem isErrE_map {α β : Type} (e : Except String α) (f : α → β) :
    isErrE (e.map f) = isErrE e := by
  cases e <;> rfl

theorem buildFold_ok {I : Inflect} {ff : Column → Except String Field} :
    ∀ {tables : List Table} (acc : Mutations × List (String × Table)),
      (∀ t ∈ tables, isJoinTable t = false → isErrE (upsertNode I ff t) = false) →
      ∃ res, tables.foldlM (buildStep I ff) acc = .ok res := by
  intro tables
  induction tables with
  | nil => intro acc _; exact ⟨acc, rfl⟩
  | cons t rest ih =>
    intro acc hok
    rw [List.foldlM_cons]
    cases hj : isJoinTable t with
    | true =>
      have hstep : buildStep I ff acc t = .ok (acc.1, insertJoin acc.2 t.name t) := by
        unfold buildStep
        rw [hj, if_pos rfl]
        rfl
      rw [hstep, Except_ok_bind]
      exact ih _ (fun t' ht' => hok t' (List.mem_cons_of_mem _ ht'))
    | false =>
      obtain ⟨node, hnode⟩ := isErrE_false_iff.mp (hok t (List.mem_cons_self t rest) hj)
      have hstep : buildStep I ff acc t =
          .ok (insertMut acc.1 t.name { node with annot := some t.name }, acc.2) := by
        unfold buildStep
        rw [hj]
        simp only [Bool.false_eq_true, if_false]
        rw [hnode, Except_ok_bind, Except_pure]
      rw [hstep, Except_ok_bind]
      exact ih _ (fun t' ht' => hok t' (List.mem_cons_of_mem _ ht'))

theorem buildFold_js_nojoin {I : Inflect} {ff : Column → Except String Field} :
    ∀ {tables : List Table} {acc res : Mutations × List (String × Table)},
      (∀ t ∈ tables, isJoinTable t = false) →
      tables.foldlM (buildStep I ff) acc = .ok res → res.2 = acc.2 := by
  intro tables
  induction tables with
  | nil =>
    intro acc res _ h
    cases h
    rfl
  | cons t rest ih =>
    intro acc res hnj h
    rw [List.foldlM_cons] at h
    cases hs : buildStep I ff acc t <;> rw [hs] at h
    · rw [Except_error_bind] at h
      exact Except.noConfusion h
    · rw [Except_ok_bind] at h
      have hj := hnj t (List.mem_cons_self t rest)
      rw [ih (fun t' ht' => hnj t' (List.mem_cons_of_mem _ ht')) h]
      unfold buildStep at hs
      rw [hj] at hs
      simp only [Bool.false_eq_true, if_false] at hs
      cases hn : upsertNode I ff t <;> rw [hn] at hs
      · rw [Except_error_bind] at hs
        exact Except.noConfusion hs
      · rw [Except_ok_bind, Except_pure] at hs
        cases hs
        rfl

theorem buildFold_js_mem {I : Inflect} {ff : Column → Except String Field}
    {jt : Table} :
    ∀ {tables : List Table} {acc res : Mutations × List (String × Table)},
      tables.foldlM (buildStep I ff) acc = .ok res →
      (jt ∈ tables ∨ lookupA acc.2 jt.name = some jt) →
      (∀ t' ∈ tables, t'.name = jt.name → t' = jt) →
      isJoinTable jt = true →
      lookupA res.2 jt.name = some jt := by
  intro tables
  induction tables with
  | nil =>
    intro acc res h hin _ _
    cases h
    rcases hin with hin | hin
    · exact absurd hin (List.not_mem_nil jt)
    · exact hin
  | cons t rest ih =>
    intro acc res h hin hdup hj
    rw [List.foldlM_cons] at h
    cases hs : buildStep I ff acc t <;> rw [hs] at h
    · rw [Except_error_bind] at h
      exact Except.noConfusion h
    · rw [Except_ok_bind] at h
      rename_i acc2
      by_cases hteq : t = jt
      · subst hteq
        refine ih h (Or.inr ?_) (fun t' ht' => hdup t' (List.mem_cons_of_mem _ ht')) hj
        unfold buildStep at hs
        rw [hj, if_pos rfl, Except_pure] at hs
        cases hs
        dsimp only
        rw [insertJoin]
        exact lookupA_insertA_self _ _ _
      · have hin2 : jt ∈ rest ∨ lookupA acc.2 jt.name = some jt := by
          rcases hin with hin | hin
          · rcases List.mem_cons.mp hin with heq | hmem
            · exact absurd heq.symm hteq
            · exact Or.inl hmem
          · exact Or.inr hin
        refine ih h ?_ (fun t' ht' => hdup t' (List.mem_cons_of_mem _ ht')) hj
        rcases hin2 with hin2 | hin2
        · exact Or.inl hin2
        · refine Or.inr ?_
          have htn : t.name ≠ jt.name := by
            intro he
            exact hteq (hdup t (List.mem_cons_self t rest) he)
          unfold buildStep at hs
          cases hjt2 : isJoinTable t <;> rw [hjt2] at hs
          · simp only [Bool.false_eq_true, if_false] at hs
            cases hn : upsertNode I ff t <;> rw [hn] at hs
            · rw [Except_error_bind] at hs
              exact Except.noConfusion hs
            · rw [Except_ok_bind, Except_pure] at hs
              cases hs
              exact hin2
          · rw [if_pos rfl, Except_pure] at hs
            cases hs
            dsimp only
            rw [insertJoin, lookupA_insertA_ne _ _ _ _ (Ne.symm htn)]
            exact hin2

theorem join_two_fks {t : Table} (h : isJoinTable t = true) :
    ∃ f0 f1, t.foreignKeys = [f0, f1] := by
  unfold isJoinTable at h
  cases hpk : t.primaryKey <;> rw [hpk] at h
  · simp at h
  · rename_i ps
    cases ps with
    | nil => simp at h
    | cons p0 ps1 =>
      cases ps1 with
      | nil => simp at h
      | cons p1 ps2 =>
        cases ps2 with
        | cons p2 ps3 => simp at h
        | nil =>
          rw [Bool.and_eq_true] at h
          obtain ⟨hlen, _⟩ := h
          have hlen2 : t.foreignKeys.length = 2 := by simpa using hlen
          obtain ⟨f0, f1, hf⟩ := List.length_eq_two.mp hlen2
          exact ⟨f0, f1, hf⟩

theorem upsertManyToMany_error {I : Inflect} {m : Mutations} {t : Table} {e : String}
    (h : upsertManyToMany I m t = .error e)
    (hfks : ∃ f0 f1, t.foreignKeys = [f0, f1]) : e = joinTableErr := by
  obtain ⟨f0, f1, hf⟩ := hfks
  unfold upsertManyToMany at h
  rw [hf] at h
  cases hA : lookupMut m f0.refTableName <;> simp only [hA] at h
  · exact (Except.error.inj h).symm
  · cases hB : lookupMut m f1.refTableName <;> simp only [hB] at h
    · exact (Except.error.inj h).symm
    · exact Except.noConfusion h

theorem relFold_err_joinTableErr {I : Inflect} {js : List (String × Table)}
    (hjs : ∀ k jt, lookupA js k = some jt → isJoinTable jt = true) :
    ∀ {tables : List Table} {m : Mutations} {e : String},
      tables.foldlM (relStep I js) m = .error e → e = joinTableErr := by
  intro tables
  induction tables with
  | nil =>
    intro m e h
    exact Except.noConfusion h
  | cons t rest ih =>
    intro m e h
    rw [List.foldlM_cons] at h
    cases hs : relStep I js m t <;> rw [hs] at h
    · rw [Except_error_bind] at h
      have he := Except.error.inj h
      subst he
      unfold relStep at hs
      cases hj : lookupA js t.name <;> rw [hj] at hs
      · exact Except.noConfusion hs
      · rename_i jt
        exact upsertManyToMany_error hs (join_two_fks (hjs t.name jt hj))
    · rw [Except_ok_bind] at h
      exact ih h

theorem relFold_not_ok {I : Inflect} {js : List (String × Table)} {jt : Table}
    {fk0 fk1 : ForeignKey} (hfks : jt.foreignKeys = [fk0, fk1]) :
    ∀ {tables : List Table} {m : Mutations},
      jt ∈ tables →
      lookupA js jt.name = some jt →
      (lookupMut m fk0.refTableName = none ∨ lookupMut m fk1.refTableName = none) →
      ∀ m', tables.foldlM (relStep I js) m ≠ .ok m' := by
  intro tables
  induction tables with
  | nil =>
    intro m hin _ _ _ _
    exact absurd hin (List.not_mem_nil jt)
  | cons t rest ih =>
    intro m hin hjs hmiss m' h
    rw [List.foldlM_cons] at h
    cases hs : relStep I js m t <;> rw [hs] at h
    · rw [Except_error_bind] at h
      exact Except.noConfusion h
    · rw [Except_ok_bind] at h
      rename_i m2
      rcases List.mem_cons.mp hin with heq | hmem
      · subst heq
        unfold relStep at hs
        simp only [hjs] at hs
        unfold upsertManyToMany at hs
        simp only [hfks] at hs
        rcases hmiss with hm | hm
        · simp only [hm] at hs
          exact Except.noConfusion hs
        · cases hA : lookupMut m fk0.refTableName <;> simp only [hA, hm] at hs
          · exact Except.noConfusion hs
          · exact Except.noConfusion hs
      · refine ih hmem hjs ?_ m' h
        rcases hmiss with hm | hm
        · exact Or.inl (isSome_none_eq (relStep_ok_isSome hs fk0.refTableName) hm)
        · exact Or.inr (isSome_none_eq (relStep_ok_isSome hs fk1.refTableName) hm)

theorem relFold_ok_nojs {I : Inflect} {js : List (String × Table)} :
    ∀ {tables : List Table} (m : Mutations),
      (∀ t ∈ tables, lookupA js t.name = none) →
      ∃ m', tables.foldlM (relStep I js) m = .ok m' := by
  intro tables
  induction tables with
  | nil => intro m _; exact ⟨m, rfl⟩
  | cons t rest ih =>
    intro m hno
    rw [List.foldlM_cons]
    have hstep : relStep I js m t = .ok (upsertOneToX I m t) := by
      unfold relStep
      rw [hno t (List.mem_cons_self t rest)]
      rfl
    rw [hstep, Except_ok_bind]
    exact ih _ (fun t' ht' => hno t' (List.mem_cons_of_mem _ ht'))

/-! ### Assembling upsertNode -/

theorem upsertNode_ok_build {I : Inflect} {ff : Column → Except String Field}
    {t : Table} {pk : Field} {fs1 fs2 fs3 : Fields}
    (hres : resolvePrimaryKey ff t = .ok pk)
    (h1 : addColumnsM ff t (addField [] pk.name pk) = .ok fs1)
    (h2 : applyUniqueIdxM t fs1 = .ok fs2)
    (h3 : applyFkOptionalM t fs2 = .ok fs3) :
    upsertNode I ff t =
      .ok { sname := typeName I t.name, fields := List.map Prod.snd fs3 } := by
  unfold upsertNode
  rw [hres, Except_ok_bind]
  dsimp only
  rw [h1, Except_ok_bind, h2, Except_ok_bind, h3, Except_ok_bind]
  rfl

theorem upsertNode_ok_inv {I : Inflect} {ff : Column → Except String Field}
    {t : Table} {u : UpsertSchema} (h : upsertNode I ff t = .ok u) :
    ∃ pk fs1 fs2 fs3,
      resolvePrimaryKey ff t = .ok pk ∧
      addColumnsM ff t (addField [] pk.name pk) = .ok fs1 ∧
      applyUniqueIdxM t fs1 = .ok fs2 ∧
      applyFkOptionalM t fs2 = .ok fs3 ∧
      u = { sname := typeName I t.name, fields := List.map Prod.snd fs3 } := by
  unfold upsertNode at h
  cases hres : resolvePrimaryKey ff t <;> rw [hres] at h
  · rw [Except_error_bind] at h
    exact Except.noConfusion h
  · rw [Except_ok_bind] at h
    rename_i pk
    dsimp only at h
    cases h1 : addColumnsM ff t (addField [] pk.name pk) <;> rw [h1] at h
    · rw [Except_error_bind] at h
      exact Except.noConfusion h
    · rw [Except_ok_bind] at h
      rename_i fs1
      cases h2 : applyUniqueIdxM t fs1 <;> rw [h2] at h
      · rw [Except_error_bind] at h
        exact Except.noConfusion h
      · rw [Except_ok_bind] at h
        rename_i fs2
        cases h3 : applyFkOptionalM t fs2 <;> rw [h3] at h
        · rw [Except_error_bind] at h
          exact Except.noConfusion h
        · rw [Except_ok_bind, Except_pure] at h
          rename_i fs3
          exact ⟨pk, fs1, fs2, fs3, rfl, h1, h2, h3, (Except.ok.inj h).symm⟩

theorem hasKey_init (k0 k : String) (f : Field) :
    hasKey (addField [] k0 f) k = (k0 == k) := by
  unfold addField hasKey
  rw [if_neg (by simp [hasKey, lookupA_nil])]
  rw [List.nil_append, lookupA_cons]
  cases hb : k0 == k <;> simp [hb, lookupA_nil]

theorem lookupA_init (k0 : String) (f : Field) :
    lookupA (addField [] k0 f) k0 = some f := by
  unfold addField
  rw [if_neg (by simp [hasKey, lookupA_nil])]
  rw [List.nil_append, lookupA_cons]
  simp

theorem names_init (k0 : String) (f : Field) (hf : f.name = k0) :
    ∀ p ∈ addField [] k0 f, Field.name p.2 = p.1 := by
  intro p hp
  unfold addField at hp
  rw [if_neg (by simp [hasKey, lookupA_nil]), List.nil_append] at hp
  have : p = (k0, f) := by simpa using hp
  rw [this]
  exact hf

theorem filter_init (k0 : String) (f : Field) :
    ((addField [] k0 f).filter (fun p => p.1 == k0)).length = 1 := by
  unfold addField
  rw [if_neg (by simp [hasKey, lookupA_nil]), List.nil_append]
  simp [List.filter_cons]

theorem lookupA_of_unique_key :
    ∀ {fs : Fields} {k : String},
      (fs.filter (fun p => p.1 == k)).length = 1 →
      ∀ {q : String × Field}, q ∈ fs → q.1 = k → lookupA fs k = some q.2 := by
  intro fs
  induction fs with
  | nil =>
    intro k _ q hq
    exact absurd hq (List.not_mem_nil q)
  | cons p rest ih =>
    intro k hlen q hq hqk
    rw [List.filter_cons] at hlen
    by_cases hpk : p.1 = k
    · rw [lookupA_cons, if_pos (by simp [hpk])]
      rw [if_pos (by simp [hpk])] at hlen
      have hrest : rest.filter (fun r => r.1 == k) = [] := by
        have : (rest.filter (fun r => r.1 == k)).length = 0 := by
          simpa using hlen
        exact List.length_eq_zero.mp this
      rcases List.mem_cons.mp hq with heq | hmem
      · rw [heq]
      · exfalso
        have : q ∈ rest.filter (fun r => r.1 == k) :=
          List.mem_filter.mpr ⟨hmem, by simp [hqk]⟩
        rw [hrest] at this
        exact absurd this (List.not_mem_nil q)
    · rw [lookupA_cons, if_neg (by simp [hpk])]
      rw [if_neg (by simp [hpk])] at hlen
      refine ih hlen ?_ hqk
      rcases List.mem_cons.mp hq with heq | hmem
      · exact absurd (by rw [heq] at hqk; exact hqk) hpk
      · exact hmem

/-- Builds a successful `upsertNode` run for a table with a single-part
primary key whose columns all map, exposing the shape of the resulting
fields: names match keys, exactly one entry is keyed "id", and that entry
keeps the primary-key field's name and storage key. -/
theorem upsertNode_master (I : Inflect) (ff : Column → Except String Field)
    (t : Table) (p : Column) (f0 : Field)
    (hname : ∀ c f, ff c = .ok f → f.name = c.name)
    (hffcols : ∀ c ∈ t.columns, isErrE (ff c) = false)
    (hpk : t.primaryKey = some [p]) (hf0 : ff p = .ok f0)
    (hidx : ∀ idx ∈ t.indexes, idx.unique = true → ∀ c0, idx.parts = [c0] →
      (c0.name = "id" ∨ ∃ c ∈ t.columns, skipPkCol t c = false ∧ c.name = c0.name))
    (hfkh : ∀ fk ∈ t.foreignKeys, ∀ c' ∈ fk.columns,
      (c'.name = "id" ∨ ∃ c ∈ t.columns, skipPkCol t c = false ∧ c.name = c'.name)) :
    ∃ fs3,
      upsertNode I ff t =
        .ok { sname := typeName I t.name, fields := List.map Prod.snd fs3 } ∧
      (∀ q ∈ fs3, Field.name q.2 = q.1) ∧
      (fs3.filter (fun q => q.1 == "id")).length = 1 ∧
      ∃ v, lookupA fs3 "id" = some v ∧ v.name = "id" ∧
        v.storageKey = (if f0.name != "id" then f0.name else f0.storageKey) := by
  have hres := resolve_ok_of hpk hf0
  set pkF : Field :=
    if f0.name != "id" then { f0 with storageKey := f0.name, name := "id" } else f0
    with hpkF
  have hpkName : pkF.name = "id" := resolvePrimaryKey_name hres
  have hpkSK : pkF.storageKey = (if f0.name != "id" then f0.name else f0.storageKey) := by
    rw [hpkF]
    cases hn : f0.name != "id" <;> simp
  obtain ⟨fs1, h1⟩ := @addColsGo_ok ff t t.columns (addField [] pkF.name pkF)
    (fun c hc _ => hffcols c hc)
  have h1' : addColumnsM ff t (addField [] pkF.name pkF) = .ok fs1 := h1
  have hpres1 : ∀ k : String,
      (k = "id" ∨ ∃ c ∈ t.columns, skipPkCol t c = false ∧ c.name = k) →
      hasKey fs1 k = true := by
    intro k hk
    rw [addColsGo_hasKey h1 k, hasKey_init]
    rcases hk with hk | ⟨c, hc, hsk, hcn⟩
    · subst hk
      rw [hpkName]
      simp
    · have hany : t.columns.any (fun c => !skipPkCol t c && c.name == k) = true :=
        List.any_eq_true.mpr ⟨c, hc, by rw [hsk, hcn]; simp⟩
      rw [hany]
      simp
  obtain ⟨fs2, h2, hkeys2, hshape2, hnames2, hfilter2⟩ :=
    @uniqIdxGo_facts t.indexes fs1
      (fun idx hi hu c0 hp0 => hpres1 c0.name (hidx idx hi hu c0 hp0))
  obtain ⟨fs3, h3, hkeys3, hshape3, hnames3, hfilter3, huntouched3, hmono3, hestab3⟩ :=
    @fkOptGo_facts t.foreignKeys fs2
      (fun fk hfk c hc => by
        rw [hkeys2 c.name]
        exact hpres1 c.name (hfkh fk hfk c hc))
  have hInitId : hasKey (addField [] pkF.name pkF) "id" = true := by
    rw [hasKey_init, hpkName]
    simp
  have hlook1 : lookupA fs1 "id" = some pkF := by
    rw [addColsGo_lookup_old h1 hInitId, hpkName]
    exact lookupA_init "id" pkF
  have hlook2 : ∃ v2, lookupA fs2 "id" = some v2 ∧ fShape v2 = fShape pkF := by
    have hs := hshape2 "id"
    rw [hlook1] at hs
    cases hl : lookupA fs2 "id" <;> rw [hl] at hs
    · exact absurd hs (by simp)
    · exact ⟨_, rfl, by simpa using hs⟩
  obtain ⟨v2, hl2, hsh2⟩ := hlook2
  have hlook3 : ∃ v3, lookupA fs3 "id" = some v3 ∧ gShape v3 = gShape v2 := by
    have hs := hshape3 "id"
    rw [hl2] at hs
    cases hl : lookupA fs3 "id" <;> rw [hl] at hs
    · exact absurd hs (by simp)
    · exact ⟨_, rfl, by simpa using hs⟩
  obtain ⟨v3, hl3, hsh3⟩ := hlook3
  have hv2name : v2.name = pkF.name := congrArg Prod.fst hsh2
  have hv2sk : v2.storageKey = pkF.storageKey :=
    congrArg (fun x => x.2.2) hsh2
  have hv3name : v3.name = v2.name := congrArg Prod.fst hsh3
  have hv3sk : v3.storageKey = v2.storageKey :=
    congrArg (fun x => x.2.2) hsh3
  refine ⟨fs3, upsertNode_ok_build hres h1' h2 h3, ?_, ?_, v3, hl3, ?_, ?_⟩
  · exact hnames3 (hnames2 (addColsGo_names hname h1
      (names_init pkF.name pkF rfl)))
  · rw [hfilter3 "id", hfilter2 "id", addColsGo_idfilter h1 hInitId, hpkName]
    exact filter_init "id" pkF
  · rw [hv3name, hv2name, hpkName]
  · rw [hv3sk, hv2sk, hpkSK]

/-! ### The dialect mappers preserve names and read optionality off nullability -/

theorem Except_map_ok {α β : Type} (g : α → β) (a : α) :
    (Except.ok a : Except String α).map g = .ok (g a) := rfl

theorem Except_map_error {α β : Type} (g : α → β) (e : String) :
    (Except.error e : Except String α).map g = .error e := rfl

/-- A fold whose step preserves a projection preserves it overall. -/
theorem foldl_preserve {α β γ : Type} (g : β → α → β) (pr : β → γ)
    (hg : ∀ b a, pr (g b a) = pr b) :
    ∀ (l : List α) (b : β), pr (l.foldl g b) = pr b := by
  intro l
  induction l with
  | nil => intro b; rfl
  | cons a rest ih =>
    intro b
    rw [List.foldl_cons, ih, hg]

theorem applyColumnAttributes_name (f : Field) (col : Column) :
    Field.name (applyColumnAttributes f col) = f.name := by
  unfold applyColumnAttributes
  dsimp only
  exact foldl_preserve _ Field.name (fun b a => by cases a <;> rfl) col.attrs _

theorem applyColumnAttributes_optional (f : Field) (col : Column) :
    Field.optional (applyColumnAttributes f col) = col.null := by
  unfold applyColumnAttributes
  dsimp only
  exact foldl_preserve _ Field.optional (fun b a => by cases a <;> rfl) col.attrs _

/-- Every successful `(*MySQL).field` result is `applyColumnAttributes`
applied to a freshly built field that carries the column's name. -/
theorem mysqlField_ok_inv {c : Column} {f : Field} (h : mysqlField c = .ok f) :
    ∃ f0, f = applyColumnAttributes f0 c ∧ Field.name f0 = c.name := by
  unfold mysqlField at h
  dsimp only at h
  cases hc : c.ctype <;> rw [hc] at h <;> dsimp only at h
  case integer t u =>
    cases hm : mysqlConvertInteger t u <;> rw [hm] at h <;> dsimp only at h
    · rw [Except_map_error] at h
      exact Except.noConfusion h
    · rw [Except_map_ok] at h
      exact ⟨_, (Except.ok.inj h).symm, rfl⟩
  all_goals first
    | (rw [Except_map_error] at h; exact Except.noConfusion h)
    | (rw [Except_map_ok] at h; exact ⟨_, (Except.ok.inj h).symm, rfl⟩)

theorem mysqlField_name (c : Column) (f : Field) (h : mysqlField c = .ok f) :
    Field.name f = c.name := by
  obtain ⟨f0, rfl, hn⟩ := mysqlField_ok_inv h
  rw [applyColumnAttributes_name]
  exact hn

theorem mysqlField_optional (c : Column) (f : Field) (h : mysqlField c = .ok f) :
    Field.optional f = c.null := by
  obtain ⟨f0, rfl, -⟩ := mysqlField_ok_inv h
  exact applyColumnAttributes_optional f0 c

/-- Fields keyed by name: the key-filter and the name-filter agree. -/
theorem filter_map_snd (fs : Fields) (hn : ∀ q ∈ fs, Field.name q.2 = q.1)
    (s : String) :
    ((List.map Prod.snd fs).filter (fun f => Field.name f == s)).length =
      (fs.filter (fun q => q.1 == s)).length := by
  induction fs with
  | nil => rfl
  | cons q rest ih =>
    have hq : Field.name q.2 = q.1 := hn q (List.mem_cons_self q rest)
    have ih2 := ih (fun q2 hq2 => hn q2 (List.mem_cons_of_mem q hq2))
    simp only [List.map_cons, List.filter_cons, hq]
    cases hb : q.1 == s <;> simp [hb, ih2]

/-! ## Claim C3: primary-key handling of the entity builder -/

/-- A bigint primary-key column whose physical name is not `id`. -/
def colPetId : Column := { name := "pet_id", ctype := .integer "bigint" false }

/-- `pets(pet_id PK)`: a table whose primary key must be renamed. -/
def petsT : Table :=
  { name := "pets", columns := [colPetId], primaryKey := some [colPetId] }

/-- C3, counterexample: the error condition of `upsertNode` is not
equivalent to the primary-key shape.  `shapes` is a non-join table with a
valid single-part primary key, yet entity construction fails (on the
unmapped `geometry` column), refuting the claimed "if and only if". -/
theorem C3_counterexample :
    isJoinTable shapesT = false ∧
    shapesT.primaryKey = some [colId] ∧
    isErrE (upsertNode inflectEN mysqlField shapesT) = true := by
  refine ⟨by decide, rfl, by decide⟩

/-- C3 (amended): for a table whose columns all map successfully, whose
primary-key column is among its columns, and whose unique single-column
indexes and foreign keys only reference resolvable fields, entity
construction errs iff the primary key is not a single-part key; on
success exactly one field is named "id", and when the physical
primary-key name differs from "id" that field's storage key is the
physical name. -/
theorem C3_primary_key (I : Inflect) (ff : Column → Except String Field)
    (t : Table)
    (hname : ∀ c f, ff c = .ok f → Field.name f = c.name)
    (hffcols : ∀ c ∈ t.columns, isErrE (ff c) = false)
    (hpkin : ∀ p, t.primaryKey = some [p] → p ∈ t.columns)
    (hidx : ∀ idx ∈ t.indexes, idx.unique = true → ∀ c0, idx.parts = [c0] →
      (c0.name = "id" ∨ ∃ c ∈ t.columns, skipPkCol t c = false ∧ c.name = c0.name))
    (hfkh : ∀ fk ∈ t.foreignKeys, ∀ c' ∈ fk.columns,
      (c'.name = "id" ∨ ∃ c ∈ t.columns, skipPkCol t c = false ∧ c.name = c'.name)) :
    (isErrE (upsertNode I ff t) = false ↔ ∃ p, t.primaryKey = some [p]) ∧
    ∀ u p, upsertNode I ff t = .ok u → t.primaryKey = some [p] →
      (u.fields.filter (fun f => Field.name f == "id")).length = 1 ∧
      (p.name ≠ "id" →
        ∃ f ∈ u.fields, Field.name f = "id" ∧ Field.storageKey f = p.name) := by
  constructor
  · constructor
    · intro hok
      by_contra hnp
      push_neg at hnp
      have herr : upsertNode I ff t = Except.error invalidPkErr := by
        unfold upsertNode
        rw [resolve_err_of_bad_pk hnp, Except_error_bind]
      rw [herr] at hok
      simp [isErrE] at hok
    · rintro ⟨p, hpk⟩
      obtain ⟨f0, hf0⟩ := isErrE_false_iff.mp (hffcols p (hpkin p hpk))
      obtain ⟨fs3, hok, -, -, -⟩ :=
        upsertNode_master I ff t p f0 hname hffcols hpk hf0 hidx hfkh
      rw [hok]
      rfl
  · intro u p hu hpk
    obtain ⟨f0, hf0⟩ := isErrE_false_iff.mp (hffcols p (hpkin p hpk))
    obtain ⟨fs3, hok, hnames, hfilter, v, hlv, hvname, hvsk⟩ :=
      upsertNode_master I ff t p f0 hname hffcols hpk hf0 hidx hfkh
    rw [hu] at hok
    obtain rfl := Except.ok.inj hok
    constructor
    · dsimp only
      rw [filter_map_snd fs3 hnames "id"]
      exact hfilter
    · intro hpne
      have hf0name : Field.name f0 = p.name := hname p f0 hf0
      refine ⟨v, ?_, hvname, ?_⟩
      · dsimp only
        exact List.mem_map.mpr ⟨("id", v), lookupA_some_mem hlv, rfl⟩
      · rw [hvsk, hf0name, if_pos (bne_iff_ne.mpr hpne)]

/-- C3, witness: on `pets(pet_id PK)` the amended theorem yields a
successful build with a single "id" field whose storage key is the
physical name `pet_id`. -/
theorem C3_primary_key_witness :
    (∃ p, petsT.primaryKey = some [p]) ∧
    isErrE (upsertNode inflectEN mysqlField petsT) = false ∧
    ∃ u, upsertNode inflectEN mysqlField petsT = .ok u ∧
      (u.fields.filter (fun f => Field.name f == "id")).length = 1 ∧
      ∃ f ∈ u.fields, Field.name f = "id" ∧ Field.storageKey f = "pet_id" := by
  have h := C3_primary_key inflectEN mysqlField petsT mysqlField_name
    (by decide)
    (by
      intro p hp
      have h1 := Option.some.inj hp
      simp at h1
      rw [← h1]
      decide)
    (fun idx h => absurd h (List.not_mem_nil idx))
    (fun fk h => absurd h (List.not_mem_nil fk))
  obtain ⟨hiff, hshape⟩ := h
  have hok := hiff.mpr ⟨colPetId, rfl⟩
  obtain ⟨u, hu⟩ := isErrE_false_iff.mp hok
  have hs := hshape u colPetId hu rfl
  exact ⟨⟨colPetId, rfl⟩, hok, u, hu, hs.1, hs.2 (by decide)⟩

/-! ## Claim C6: foreign-key columns are forced optional -/

/-- A non-nullable plain string column `note`. -/
def colNote : Column := { name := "note", ctype := .string }

/-- `cards(id PK, user_card bigint FK -> users.id, note varchar NOT NULL)`:
one foreign-key column and one plain column. -/
def cardsNoteT : Table :=
  { name := "cards", columns := [colId, colUserCard, colNote],
    primaryKey := some [colId],
    foreignKeys := [{ columns := [colUserCard], refTableName := "users" }] }

/-- C6: on a successful build with a name- and nullability-faithful
column mapper, the field of a sole-column foreign key is optional
regardless of the column's nullability, while a column outside every
foreign key (unambiguously named, not the primary key) yields a field
whose optionality is exactly the column's nullability. -/
theorem C6_fk_optional (I : Inflect) (ff : Column → Except String Field)
    (t : Table) (u : UpsertSchema)
    (hname : ∀ c f, ff c = .ok f → Field.name f = c.name)
    (hopt : ∀ c f, ff c = .ok f → Field.optional f = c.null)
    (hffc : ∀ c ∈ t.columns, isErrE (ff c) = false)
    (hu : upsertNode I ff t = .ok u) :
    (∀ fk ∈ t.foreignKeys, ∀ c, fk.columns = [c] →
      ∃ f ∈ u.fields, Field.name f = c.name ∧ Field.optional f = true) ∧
    (∀ c ∈ t.columns, skipPkCol t c = false →
      (∀ c' ∈ t.columns, c'.name = c.name → c' = c) →
      c.name ≠ "id" →
      (∀ fk ∈ t.foreignKeys, ∀ c' ∈ fk.columns, c'.name ≠ c.name) →
      ∃ f ∈ u.fields, Field.name f = c.name ∧ Field.optional f = c.null) := by
  obtain ⟨pk, fs1, fs2, fs3, hres, h1, h2, h3, rfl⟩ := upsertNode_ok_inv hu
  have hn1 : ∀ p ∈ fs1, Field.name p.2 = p.1 :=
    addColsGo_names hname h1 (names_init pk.name pk rfl)
  have hn2 : ∀ p ∈ fs2, Field.name p.2 = p.1 :=
    uniqIdxGo_ok_inv (fun fs => ∀ p ∈ fs, Field.name p.2 = p.1)
      (fun fs k hp => by
        unfold setUniqueAt
        exact names_updateA (fun f => rfl) hp)
      h2 hn1
  have hn3 : ∀ p ∈ fs3, Field.name p.2 = p.1 :=
    fkOptGo_ok_inv (fun fs => ∀ p ∈ fs, Field.name p.2 = p.1)
      (fun fs fk0 hfk0 c0 hc0 hp => by
        unfold setOptionalAt
        exact names_updateA (fun f => rfl) hp)
      h3 hn2
  constructor
  · intro fk hfk c hc
    have hmemc : c ∈ fk.columns := by
      rw [hc]
      exact List.mem_cons_self c []
    obtain ⟨p, hpin, hpk1, hpo⟩ := fkOptGo_ok_optAt h3 hfk hmemc
    refine ⟨p.2, ?_, ?_, hpo⟩
    · dsimp only
      exact List.mem_map_of_mem Prod.snd hpin
    · rw [hn3 p hpin, hpk1]
  · intro c hcin hsk huniq hcid hnfk
    obtain ⟨f, hf⟩ := isErrE_false_iff.mp (hffc c hcin)
    have hkey0 : hasKey (addField [] pk.name pk) c.name = false := by
      rw [hasKey_init, resolvePrimaryKey_name hres]
      exact beq_eq_false_iff_ne.mpr (Ne.symm hcid)
    have hl1 : lookupA fs1 c.name = some f :=
      addColsGo_lookup_new hsk hf h1 hcin huniq hkey0
    have h2s : (lookupA fs2 c.name).map fShape = some (fShape f) :=
      uniqIdxGo_ok_inv (fun fs => (lookupA fs c.name).map fShape = some (fShape f))
        (fun fs k hp => by
          dsimp only at hp ⊢
          rw [shape_setUniqueAt]
          exact hp)
        h2 (by dsimp only; rw [hl1]; rfl)
    have h3s : lookupA fs3 c.name = lookupA fs2 c.name :=
      fkOptGo_ok_inv (fun fs => lookupA fs c.name = lookupA fs2 c.name)
        (fun fs fk0 hfk0 c0 hc0 hp => by
          dsimp only at hp ⊢
          unfold setOptionalAt
          rw [lookupA_updateA_ne _ _ _ _ (Ne.symm (hnfk fk0 hfk0 c0 hc0))]
          exact hp)
        h3 rfl
    have hfin : (lookupA fs3 c.name).map fShape = some (fShape f) := by
      rw [h3s]
      exact h2s
    cases hl3 : lookupA fs3 c.name <;> rw [hl3] at hfin
    · exact absurd hfin (by simp)
    · rename_i v
      have hsv : fShape v = fShape f := by simpa using hfin
      have hvname : v.name = f.name := congrArg Prod.fst hsv
      have hvopt : v.optional = f.optional := congrArg (fun x => x.2.1) hsv
      refine ⟨v, ?_, ?_, ?_⟩
      · dsimp only
        exact List.mem_map_of_mem Prod.snd (lookupA_some_mem hl3)
      · rw [hvname]
        exact (hname c f hf)
      · rw [hvopt]
        exact (hopt c f hf)

/-- C6, witness: on `cards(id PK, user_card FK, note)` with the MySQL
mapper, the non-nullable FK column becomes an optional field while the
non-nullable plain column stays required. -/
theorem C6_fk_optional_witness :
    ∃ u, upsertNode inflectEN mysqlField cardsNoteT = .ok u ∧
      (∃ f ∈ u.fields, Field.name f = "user_card" ∧ Field.optional f = true) ∧
      (∃ f ∈ u.fields, Field.name f = "note" ∧ Field.optional f = false) := by
  obtain ⟨u, hu⟩ := isErrE_false_iff.mp
    (show isErrE (upsertNode inflectEN mysqlField cardsNoteT) = false by decide)
  have h := C6_fk_optional inflectEN mysqlField cardsNoteT u
    mysqlField_name mysqlField_optional (by decide) hu
  refine ⟨u, hu, ?_, ?_⟩
  · exact h.1 { columns := [colUserCard], refTableName := "users" } (by decide)
      colUserCard rfl
  · exact h.2 colNote (by decide) (by decide) (by decide) (by decide) (by decide)

/-! ## Claim C4: unsupported column types abort the import -/

theorem isErrE_true_iff {α : Type} {e : Except String α} :
    isErrE e = true ↔ ∃ s, e = .error s := by
  cases e <;> simp [isErrE]

/-- The default arm of `(*MySQL).field` on an unmapped type. -/
theorem mysqlField_other (c : Column) (s : String) (hcs : c.ctype = .other s) :
    mysqlField c = .error (mysqlUnsupportedMsg c.name (.other s)) := by
  unfold mysqlField
  dsimp only
  rw [hcs]
  dsimp only
  rw [Except_map_error]

/-- A non-skipped column whose mapper errs makes `upsertNode` err. -/
theorem upsertNode_err_of_col (I : Inflect) (ff : Column → Except String Field)
    {t : Table} {c : Column} (hc : c ∈ t.columns) (hsk : skipPkCol t c = false)
    (herr : isErrE (ff c) = true) :
    isErrE (upsertNode I ff t) = true := by
  unfold upsertNode
  cases hres : resolvePrimaryKey ff t
  · rw [Except_error_bind]
    rfl
  · rw [Except_ok_bind]
    dsimp only
    rename_i pk
    obtain ⟨e, he⟩ :=
      isErrE_true_iff.mp (addColsGo_err hsk herr (addField [] pk.name pk) hc)
    rw [show addColumnsM ff t (addField [] pk.name pk) = Except.error e from he,
      Except_error_bind]
    rfl

/-- A non-join table whose `upsertNode` errs makes `buildStep` err
whatever the accumulator. -/
theorem buildStep_err {I : Inflect} {ff : Column → Except String Field}
    {t : Table} (hjt : isJoinTable t = false)
    (hun : isErrE (upsertNode I ff t) = true)
    (acc : Mutations × List (String × Table)) :
    isErrE (buildStep I ff acc t) = true := by
  unfold buildStep
  rw [hjt]
  simp only [Bool.false_eq_true, if_false]
  obtain ⟨e, he⟩ := isErrE_true_iff.mp hun
  rw [he, Except_error_bind]
  rfl

/-- If some member table's step always errs, the whole pass-1 fold errs. -/
theorem buildFold_err {I : Inflect} {ff : Column → Except String Field}
    {t : Table} (herr : ∀ a, isErrE (buildStep I ff a t) = true) :
    ∀ {tables : List Table}, t ∈ tables →
      ∀ acc, isErrE (tables.foldlM (buildStep I ff) acc) = true := by
  intro tables
  induction tables with
  | nil =>
    intro hin
    exact absurd hin (List.not_mem_nil t)
  | cons t0 rest ih =>
    intro hin acc
    rw [List.foldlM_cons]
    cases hs : buildStep I ff acc t0
    · rw [Except_error_bind]
      rfl
    · rw [Except_ok_bind]
      rcases List.mem_cons.mp hin with heq | hmem
      · subst heq
        have hcontra := herr acc
        rw [hs] at hcontra
        simp [isErrE] at hcontra
      · exact ih hmem _

/-- A pass-1 error is the error of the whole import: no mutation list
accompanies it. -/
theorem schemaMutations_err {I : Inflect} {ff : Column → Except String Field}
    {tables : List Table} (hbe : isErrE (buildEntities I ff tables) = true) :
    isErrE (schemaMutations I ff tables) = true := by
  unfold schemaMutations
  rw [isErrE_map]
  unfold schemaMutationsMap
  obtain ⟨e, he⟩ := isErrE_true_iff.mp hbe
  rw [he, Except_error_bind]
  rfl

/-- C4, counterexample: the import error does not name the table
(`shapes` is absent from the message), and an unmapped column type
inside a join table does not abort the import at all — join-table
columns are never mapped. -/
theorem C4_counterexample :
    schemaMutations inflectEN mysqlField [shapesT] =
      .error "column g: unsupported type geometry" ∧
    ¬ List.IsInfix "shapes".data "column g: unsupported type geometry".data ∧
    isJoinTable guGeomT = true ∧
    colG ∈ guGeomT.columns ∧
    isErrE (mysqlField colG) = true ∧
    isErrE (schemaMutations inflectEN mysqlField [groupsT, usersT, guGeomT]) =
      false := by
  refine ⟨rfl, by decide, by decide, by decide, by decide, by decide⟩

/-- C4 (amended): a column with an unmapped native type in a non-join
table aborts the whole import with an error naming the column and the
type (the MySQL message does not name the table), and the result carries
no mutation list at all. -/
theorem C4_unsupported_type (I : Inflect) (tables : List Table)
    (t : Table) (c : Column) (s : String)
    (ht : t ∈ tables) (hjt : isJoinTable t = false)
    (hc : c ∈ t.columns) (hsk : skipPkCol t c = false)
    (hcs : c.ctype = .other s) :
    mysqlField c = .error (mysqlUnsupportedMsg c.name (.other s)) ∧
    isErrE (schemaMutations I mysqlField tables) = true ∧
    ∀ ms, schemaMutations I mysqlField tables ≠ .ok ms := by
  have hmf : mysqlField c = .error (mysqlUnsupportedMsg c.name (.other s)) :=
    mysqlField_other c s hcs
  have hun : isErrE (upsertNode I mysqlField t) = true :=
    upsertNode_err_of_col I mysqlField hc hsk (by rw [hmf]; rfl)
  have hbe : isErrE (buildEntities I mysqlField tables) = true := by
    unfold buildEntities
    exact buildFold_err (buildStep_err hjt hun) ht ([], [])
  have hsm := schemaMutations_err hbe
  refine ⟨hmf, hsm, ?_⟩
  intro ms hok
  rw [hok] at hsm
  simp [isErrE] at hsm

/-- C4, witness: `shapes(id PK, g geometry)` imported together with
`users` fails the whole run on the `geometry` column. -/
theorem C4_unsupported_type_witness :
    mysqlField colG = .error (mysqlUnsupportedMsg "g" (.other "geometry")) ∧
    isErrE (schemaMutations inflectEN mysqlField [usersT, shapesT]) = true ∧
    ∀ ms, schemaMutations inflectEN mysqlField [usersT, shapesT] ≠ .ok ms := by
  exact C4_unsupported_type inflectEN [usersT, shapesT] shapesT colG "geometry"
    (by decide) (by decide) (by decide) (by decide) rfl

/-! ## Claim C8: a missing one-to-X endpoint is skipped silently -/

/-- `cards(id PK, user_card FK -> missing)`: a foreign key whose parent
table is outside the imported set. -/
def cardsMissT : Table :=
  { name := "cards", columns := [colId, colUserCard], primaryKey := some [colId],
    foreignKeys := [{ columns := [colUserCard], refTableName := "missing" }] }

/-- C8 (confirmed): a single-column foreign key whose parent or child
entity is absent produces no edge pair (the map is returned unchanged)
and no error — with no join tables in the set, the import still
succeeds. -/
theorem C8_missing_endpoint (I : Inflect) (ff : Column → Except String Field)
    (tables : List Table) (t0 : Table) (fk : ForeignKey) (c : Column)
    (_ht0 : t0 ∈ tables)
    (hnj : ∀ t ∈ tables, isJoinTable t = false)
    (hnodes : ∀ t ∈ tables, isErrE (upsertNode I ff t) = false)
    (hfks : t0.foreignKeys = [fk]) (hc : fk.columns = [c]) :
    (∀ m : Mutations,
      (lookupMut m fk.refTableName = none ∨ lookupMut m t0.name = none) →
      upsertOneToX I m t0 = m) ∧
    isErrE (schemaMutations I ff tables) = false := by
  constructor
  · intro m hm
    unfold upsertOneToX
    rw [hfks]
    have h1 : ([fk] : List ForeignKey).isEmpty = false := rfl
    rw [h1]
    simp only [Bool.false_eq_true, if_false]
    unfold oneToXLoop
    rw [hc]
    dsimp only
    rcases hm with hm | hm
    · rw [hm]
    · rw [hm]
      cases lookupMut m fk.refTableName <;> rfl
  · obtain ⟨res, hres⟩ :=
      @buildFold_ok I ff tables ([], []) (fun t ht _ => hnodes t ht)
    have hjs : res.2 = [] := buildFold_js_nojoin hnj hres
    unfold schemaMutations schemaMutationsMap buildEntities
    rw [hres, Except_ok_bind]
    obtain ⟨m1, js⟩ := res
    dsimp only at hjs
    subst hjs
    obtain ⟨m', hm'⟩ :=
      @relFold_ok_nojs I [] tables m1 (fun t _ => rfl)
    rw [isErrE_map]
    exact isErrE_false_iff.mpr ⟨m', hm'⟩

/-- C8, witness: the theorem applied to `cards.user_card -> missing` with
`users` and `cards` imported. -/
theorem C8_missing_endpoint_witness :
    (cardsMissT ∈ [usersT, cardsMissT] ∧
      (∀ t ∈ [usersT, cardsMissT], isJoinTable t = false) ∧
      (∀ t ∈ [usersT, cardsMissT],
        isErrE (upsertNode inflectEN mysqlField t) = false) ∧
      cardsMissT.foreignKeys = [{ columns := [colUserCard], refTableName := "missing" }]) ∧
    ((∀ m : Mutations,
      (lookupMut m "missing" = none ∨ lookupMut m cardsMissT.name = none) →
      upsertOneToX inflectEN m cardsMissT = m) ∧
    isErrE (schemaMutations inflectEN mysqlField [usersT, cardsMissT]) = false) :=
  ⟨⟨by decide, by decide, by intro t ht; fin_cases ht <;> rfl, rfl⟩,
    C8_missing_endpoint inflectEN mysqlField [usersT, cardsMissT] cardsMissT
      { columns := [colUserCard], refTableName := "missing" } colUserCard
      (by decide) (by decide) (by intro t ht; fin_cases ht <;> rfl) rfl rfl⟩

/-! ## Claim C5: missing join-table references fail fast -/

/-- C5 (confirmed): when a join table's first or second foreign key
references a table with no entity in the built entity set — every table
of that name, if any, being itself a join table — the whole import fails
with the dedicated join-table error and returns no mutation list. -/
theorem C5_missing_join_reference (I : Inflect) (ff : Column → Except String Field)
    (tables : List Table) (jt : Table) (fk0 fk1 : ForeignKey)
    (hjt : jt ∈ tables) (hj : isJoinTable jt = true)
    (hdup : ∀ t' ∈ tables, t'.name = jt.name → t' = jt)
    (hnodes : ∀ t ∈ tables, isJoinTable t = false →
      isErrE (upsertNode I ff t) = false)
    (hfks : jt.foreignKeys = [fk0, fk1])
    (hmissA : (∀ t' ∈ tables, t'.name = fk0.refTableName → isJoinTable t' = true) ∨
      (∀ t' ∈ tables, t'.name = fk1.refTableName → isJoinTable t' = true)) :
    schemaMutations I ff tables = .error joinTableErr := by
  obtain ⟨res, hres⟩ :=
    @buildFold_ok I ff tables ([], []) hnodes
  have hjsm : lookupA res.2 jt.name = some jt :=
    buildFold_js_mem hres (Or.inl hjt) hdup hj
  have hjoinvals : ∀ k jt', lookupA res.2 k = some jt' → isJoinTable jt' = true :=
    buildFold_js_join hres (fun k jt' hk => by simp [lookupA_nil] at hk)
  have hmiss' : lookupMut res.1 fk0.refTableName = none ∨
      lookupMut res.1 fk1.refTableName = none := by
    rcases hmissA with hA | hA
    · left
      cases hv : lookupMut res.1 fk0.refTableName with
      | none => rfl
      | some v =>
        have hvs : (lookupMut res.1 fk0.refTableName).isSome = true := by
          rw [hv]; rfl
        rcases buildFold_keys hres _ hvs with hbase | ⟨t', ht', hn, hnj'⟩
        · simp [lookupMut, lookupA_nil] at hbase
        · exact absurd (hA t' ht' hn) (by rw [hnj']; simp)
    · right
      cases hv : lookupMut res.1 fk1.refTableName with
      | none => rfl
      | some v =>
        have hvs : (lookupMut res.1 fk1.refTableName).isSome = true := by
          rw [hv]; rfl
        rcases buildFold_keys hres _ hvs with hbase | ⟨t', ht', hn, hnj'⟩
        · simp [lookupMut, lookupA_nil] at hbase
        · exact absurd (hA t' ht' hn) (by rw [hnj']; simp)
  unfold schemaMutations schemaMutationsMap buildEntities
  rw [hres, Except_ok_bind]
  obtain ⟨m1, js⟩ := res
  dsimp only at hjsm hjoinvals hmiss' ⊢
  cases hrp : relationPass I js tables m1 with
  | ok m' =>
    exact absurd hrp (relFold_not_ok hfks hjt hjsm hmiss' m')
  | error e =>
    have he : e = joinTableErr := relFold_err_joinTableErr hjoinvals hrp
    subst he
    rfl

/-- C5, witness: importing only `users` and the `group_users` join table —
`groups` excluded — fails with the dedicated join-table error. -/
theorem C5_missing_join_reference_witness :
    (guT ∈ [usersT, guT] ∧ isJoinTable guT = true ∧
      (∀ t' ∈ [usersT, guT], t'.name = guT.name → t' = guT) ∧
      (∀ t ∈ [usersT, guT], isJoinTable t = false →
        isErrE (upsertNode inflectEN mysqlField t) = false) ∧
      guT.foreignKeys = [{ columns := [colGid], refTableName := "groups" },
                         { columns := [colUid], refTableName := "users" }] ∧
      (∀ t' ∈ [usersT, guT], t'.name = "groups" → isJoinTable t' = true)) ∧
    schemaMutations inflectEN mysqlField [usersT, guT] = .error joinTableErr :=
  ⟨⟨by decide, by decide, by decide,
      by
        intro t ht hfj
        fin_cases ht
        · rfl
        · exact absurd hfj (by decide),
      rfl, by decide⟩,
    C5_missing_join_reference inflectEN mysqlField [usersT, guT] guT
      { columns := [colGid], refTableName := "groups" }
      { columns := [colUid], refTableName := "users" }
      (by decide) (by decide) (by decide)
      (by
        intro t ht hfj
        fin_cases ht
        · rfl
        · exact absurd hfj (by decide)) rfl
      (Or.inl (by decide))⟩

/-! ## Edge construction lemmas (claims C1 and C7) -/

theorem entEdgeFrom_unique (I : Inflect) (n ty : String) (cf : List Field)
    (opts : RelOptions) (h : opts.uniqueEdgeFromParent = true) :
    (entEdgeFrom I n ty cf opts).1.unique = true := by
  cases hr : opts.recursive <;> cases he : opts.edgeField == "" <;>
    cases hs : I.singularize n == opts.edgeField <;>
      simp only [beq_iff_eq, beq_eq_false_iff_ne] at he hs <;>
      simp [entEdgeFrom, setEdgeField, h, hr, he, hs]

theorem entEdgeFrom_efield (I : Inflect) (n ty : String) (cf : List Field)
    (opts : RelOptions) (hu : opts.uniqueEdgeFromParent = true)
    (hne : (opts.edgeField == "") = false) :
    (entEdgeFrom I n ty cf opts).1.efield =
      if I.singularize n == opts.edgeField then opts.edgeField ++ "_id"
      else opts.edgeField := by
  have hne' := beq_eq_false_iff_ne.mp hne
  cases hr : opts.recursive <;> cases hs : I.singularize n == opts.edgeField <;>
    simp only [beq_iff_eq, beq_eq_false_iff_ne] at hs <;>
    simp [entEdgeFrom, setEdgeField, hu, hne', hr, hs]

theorem entEdgeTo_unique_eq (I : Inflect) (n ty : String) (opts : RelOptions) :
    (entEdgeTo I n ty opts).unique = opts.uniqueEdgeToChild := by
  cases hu : opts.uniqueEdgeToChild <;> cases hr : opts.recursive <;>
    simp [entEdgeTo, hu, hr]

theorem entEdgeTo_ename (I : Inflect) (n ty : String) (opts : RelOptions) :
    (entEdgeTo I n ty opts).ename =
      (if opts.recursive = true then
        "child_" ++ (if opts.uniqueEdgeToChild = true then I.singularize n else n)
      else (if opts.uniqueEdgeToChild = true then I.singularize n else n)) := by
  cases hu : opts.uniqueEdgeToChild <;> cases hr : opts.recursive <;>
    simp [entEdgeTo, hu, hr]

theorem entEdgeFrom_ename (I : Inflect) (n ty : String) (cf : List Field)
    (opts : RelOptions) :
    (entEdgeFrom I n ty cf opts).1.ename =
      (if opts.recursive = true then
        "parent_" ++ (if opts.uniqueEdgeFromParent = true then I.singularize n else n)
      else (if opts.uniqueEdgeFromParent = true then I.singularize n else n)) := by
  cases hu : opts.uniqueEdgeFromParent <;> cases hr : opts.recursive <;>
    cases he : opts.edgeField == "" <;>
      (simp only [entEdgeFrom, setEdgeField, hu, hr, he, bne, Bool.not_false,
        Bool.not_true, Bool.false_eq_true, if_false, if_true]
       try split) <;> simp

theorem upsertRelation_eq_distinct (I : Inflect) (m : Mutations) (kA kB : String)
    (opts : RelOptions) (nodeA nodeB : UpsertSchema)
    (hA : lookupMut m kA = some nodeA) (hB : lookupMut m kB = some nodeB)
    (hne : kA ≠ kB) :
    lookupMut (upsertRelation I m kA kB opts) kA =
      some { nodeA with edges := nodeA.edges ++
        [entEdgeTo I (tableName I nodeB.sname) nodeB.sname
          { opts with refName := tableName I nodeB.sname }] } ∧
    lookupMut (upsertRelation I m kA kB opts) kB =
      some { nodeB with
        fields := (entEdgeFrom I (tableName I nodeA.sname) nodeA.sname nodeB.fields
          { opts with refName := tableName I nodeB.sname }).2,
        edges := nodeB.edges ++
          [(entEdgeFrom I (tableName I nodeA.sname) nodeA.sname nodeB.fields
            { opts with refName := tableName I nodeB.sname }).1] } := by
  have hA' : lookupA m kA = some nodeA := hA
  have hB' : lookupA m kB = some nodeB := hB
  unfold upsertRelation
  rw [hA, hB]
  dsimp only
  rw [if_neg (by simp [hne])]
  constructor
  · show lookupA (updateA (updateA m kA _) kB _) kA = _
    rw [lookupA_updateA_ne _ _ _ _ hne, lookupA_updateA_self, hA']
    rfl
  · show lookupA (updateA (updateA m kA _) kB _) kB = _
    rw [lookupA_updateA_self, lookupA_updateA_ne _ _ _ _ (Ne.symm hne), hB']
    rfl

theorem upsertRelation_eq_self (I : Inflect) (m : Mutations) (k : String)
    (opts : RelOptions) (node : UpsertSchema) (h : lookupMut m k = some node) :
    lookupMut (upsertRelation I m k k opts) k =
      some { node with
        fields := (entEdgeFrom I (tableName I node.sname) node.sname node.fields
          { opts with refName := tableName I node.sname }).2,
        edges := node.edges ++
          [entEdgeTo I (tableName I node.sname) node.sname
            { opts with refName := tableName I node.sname },
          (entEdgeFrom I (tableName I node.sname) node.sname node.fields
            { opts with refName := tableName I node.sname }).1] } := by
  have h' : lookupA m k = some node := h
  unfold upsertRelation
  rw [h]
  dsimp only
  rw [if_pos (beq_self_eq_true k)]
  show lookupA (updateA m k _) k = _
  rw [lookupA_updateA_self, h']
  rfl

theorem upsertOneToX_single (I : Inflect) (m : Mutations) (t : Table)
    (fk : ForeignKey) (c : Column)
    (hfks : t.foreignKeys = [fk]) (hc : fk.columns = [c])
    (hp : (lookupMut m fk.refTableName).isSome = true)
    (hch : (lookupMut m t.name).isSome = true) :
    upsertOneToX I m t =
      upsertRelation I m fk.refTableName t.name
        (oneToXOpts t fk.refTableName c.name) := by
  unfold upsertOneToX
  rw [hfks]
  have h1 : ([fk] : List ForeignKey).isEmpty = false := rfl
  rw [h1]
  simp only [Bool.false_eq_true, if_false]
  unfold oneToXLoop
  rw [hc]
  dsimp only
  cases hpv : lookupMut m fk.refTableName with
  | none => rw [hpv] at hp; simp at hp
  | some nodeP =>
    cases hcv : lookupMut m t.name with
    | none => rw [hcv] at hch; simp at hch
    | some nodeC => rfl

/-! ## Claim C1: one-to-one versus one-to-many inference -/

/-- The claim's words for "covered by a single-column unique index": some
unique index of the table has exactly this column as its only part. -/
def specCoveredByUnique (t : Table) (col : String) : Bool :=
  t.indexes.any
    (fun idx =>
      idx.unique &&
        match idx.parts with
        | [c] => c.name == col
        | _ => false)

/-- C1, counterexample: for `cards(id, user FK -> users)` whose `user`
column carries a unique single-column index shadowed by a later
non-unique one, the parent edge comes out non-unique although the column
is covered by a single-column unique index; and because the FK column
`user` collides with the singularized parent edge name, the child edge
carries `user_id`, not the FK column `user`, as its associated field. -/
theorem C1_counterexample :
    specCoveredByUnique cardsUserT "user" = true ∧
    (schemaMutationsMap inflectEN mysqlField [usersT, cardsUserT]).map
      (fun m => (lookupMut m "users").map (fun n => n.edges.map Edge.unique)) =
      .ok (some [false]) ∧
    (schemaMutationsMap inflectEN mysqlField [usersT, cardsUserT]).map
      (fun m => (lookupMut m "cards").map (fun n => n.edges.map Edge.efield)) =
      .ok (some ["user_id"]) ∧
    "user_id" ≠ "user" := by
  refine ⟨by decide, by rfl, by rfl, by decide⟩

/-- C1 (amended): for a single-column FK between distinct tables with
both endpoint entities present, the incoming edge on the child is always
unique and carries the FK column as its associated field unless the
column name equals the singularized parent edge name, in which case the
field is the column name suffixed `_id`; the outgoing edge on the parent
is unique when the code's index map (the last single-column index on the
FK column) is unique, and otherwise is non-unique and plural-named
(named by `tableName` of the child entity). -/
theorem C1_one_to_x (I : Inflect) (m : Mutations) (t : Table)
    (fk : ForeignKey) (c : Column) (nodeP nodeC : UpsertSchema)
    (hfks : t.foreignKeys = [fk]) (hc : fk.columns = [c])
    (hne : fk.refTableName ≠ t.name) (hcn : c.name ≠ "")
    (hp : lookupMut m fk.refTableName = some nodeP)
    (hch : lookupMut m t.name = some nodeC) :
    ∃ eTo eFrom fsC,
      lookupMut (upsertOneToX I m t) fk.refTableName =
        some { nodeP with edges := nodeP.edges ++ [eTo] } ∧
      lookupMut (upsertOneToX I m t) t.name =
        some { nodeC with fields := fsC, edges := nodeC.edges ++ [eFrom] } ∧
      eFrom.unique = true ∧
      eFrom.efield = (if I.singularize (tableName I nodeP.sname) == c.name
        then c.name ++ "_id" else c.name) ∧
      (codeUniqueCovered t c.name = true → eTo.unique = true) ∧
      (codeUniqueCovered t c.name = false →
        eTo.unique = false ∧ eTo.ename = tableName I nodeC.sname) := by
  rw [upsertOneToX_single I m t fk c hfks hc (by rw [hp]; rfl) (by rw [hch]; rfl)]
  obtain ⟨h1, h2⟩ := upsertRelation_eq_distinct I m fk.refTableName t.name
    (oneToXOpts t fk.refTableName c.name) nodeP nodeC hp hch hne
  set opts' : RelOptions :=
    { oneToXOpts t fk.refTableName c.name with refName := tableName I nodeC.sname }
    with hopts
  have hu : opts'.uniqueEdgeFromParent = true := rfl
  have hef : opts'.edgeField = c.name := rfl
  have hrec : opts'.recursive = false := by
    show (t.name == fk.refTableName) = false
    exact beq_eq_false_iff_ne.mpr (Ne.symm hne)
  have huc : opts'.uniqueEdgeToChild = codeUniqueCovered t c.name := rfl
  refine ⟨_, _, _, h1, h2, ?_, ?_, ?_, ?_⟩
  · exact entEdgeFrom_unique I _ _ _ _ hu
  · rw [entEdgeFrom_efield I _ _ _ _ hu]
    · rw [hef]
    · rw [hef]
      exact beq_eq_false_iff_ne.mpr hcn
  · intro hcov
    rw [entEdgeTo_unique_eq, huc]
    exact hcov
  · intro hcov
    constructor
    · rw [entEdgeTo_unique_eq, huc]
      exact hcov
    · rw [entEdgeTo_ename, hrec, huc, hcov]
      simp

/-- C1, witness: the amended theorem applied to `cards.user -> users.id`
with both entities present and no effective unique index. -/
theorem C1_one_to_x_witness :
    (cardsUserT.foreignKeys = [{ columns := [colUser], refTableName := "users" }] ∧
      ({ columns := [colUser], refTableName := "users" } : ForeignKey).columns = [colUser] ∧
      lookupMut mW "users" = some userNodeW ∧
      lookupMut mW "cards" = some cardNodeW) ∧
    (∃ eTo eFrom fsC,
      lookupMut (upsertOneToX inflectEN mW cardsUserT) "users" =
        some { userNodeW with edges := userNodeW.edges ++ [eTo] } ∧
      lookupMut (upsertOneToX inflectEN mW cardsUserT) "cards" =
        some { cardNodeW with fields := fsC, edges := cardNodeW.edges ++ [eFrom] } ∧
      eFrom.unique = true ∧
      eFrom.efield = (if inflectEN.singularize (tableName inflectEN userNodeW.sname) == colUser.name
        then colUser.name ++ "_id" else colUser.name) ∧
      (codeUniqueCovered cardsUserT colUser.name = true → eTo.unique = true) ∧
      (codeUniqueCovered cardsUserT colUser.name = false →
        eTo.unique = false ∧ eTo.ename = tableName inflectEN cardNodeW.sname)) :=
  ⟨⟨rfl, rfl, rfl, rfl⟩,
    C1_one_to_x inflectEN mW cardsUserT
      { columns := [colUser], refTableName := "users" } colUser userNodeW cardNodeW
      rfl rfl (by decide) (by decide) rfl rfl⟩

/-! ## Claim C7: recursive relationship naming -/

theorem childParent_ne (x y : String) : ("child_" ++ x) ≠ ("parent_" ++ y) := by
  intro h
  have hd := congrArg String.data h
  have h1 : ("child_" ++ x).data = 'c' :: 'h' :: 'i' :: 'l' :: 'd' :: '_' :: x.data := by
    cases x with
    | mk l => rfl
  have h2 : ("parent_" ++ y).data =
      'p' :: 'a' :: 'r' :: 'e' :: 'n' :: 't' :: '_' :: y.data := by
    cases y with
    | mk l => rfl
  rw [h1, h2] at hd
  simp at hd

/-- C7 (confirmed): for a self-referential single-column foreign key with
the entity present, the pass appends exactly two edges to the entity: the
outgoing one prefixed `child_`, the incoming one prefixed `parent_`, and
the two names never collide. -/
theorem C7_recursive_edges (I : Inflect) (m : Mutations) (t : Table)
    (fk : ForeignKey) (c : Column) (node : UpsertSchema)
    (hfks : t.foreignKeys = [fk]) (hc : fk.columns = [c])
    (hself : fk.refTableName = t.name)
    (hnode : lookupMut m t.name = some node) :
    ∃ fsC eTo eFrom,
      lookupMut (upsertOneToX I m t) t.name =
        some { node with fields := fsC, edges := node.edges ++ [eTo, eFrom] } ∧
      (∃ s, eTo.ename = "child_" ++ s) ∧
      (∃ s, eFrom.ename = "parent_" ++ s) ∧
      eTo.ename ≠ eFrom.ename := by
  have hp : (lookupMut m fk.refTableName).isSome = true := by
    rw [hself, hnode]; rfl
  rw [upsertOneToX_single I m t fk c hfks hc hp (by rw [hnode]; rfl)]
  rw [hself]
  have h1 := upsertRelation_eq_self I m t.name
    (oneToXOpts t t.name c.name) node hnode
  set opts' : RelOptions :=
    { oneToXOpts t t.name c.name with refName := tableName I node.sname }
    with hopts
  have hrec : opts'.recursive = true := by
    show (t.name == t.name) = true
    exact beq_self_eq_true t.name
  refine ⟨_, _, _, h1, ?_, ?_, ?_⟩
  · rw [entEdgeTo_ename, hrec]
    simp only [if_true]
    exact ⟨_, rfl⟩
  · rw [entEdgeFrom_ename, hrec]
    simp only [if_true]
    exact ⟨_, rfl⟩
  · rw [entEdgeTo_ename, entEdgeFrom_ename, hrec]
    simp only [if_true]
    exact childParent_ne _ _

/-- A plain `Node` entity used as map content in witnesses. -/
def nodeNodeW : UpsertSchema := { sname := "Node" }

/-- A one-entity map holding `nodes`. -/
def mNodesW : Mutations := [("nodes", nodeNodeW)]

/-- C7, witness: the theorem applied to the self-referential
`nodes.node_next -> nodes.id` foreign key. -/
theorem C7_recursive_edges_witness :
    (nodesT.foreignKeys = [{ columns := [colNodeNext], refTableName := "nodes" }] ∧
      ({ columns := [colNodeNext], refTableName := "nodes" } : ForeignKey).columns =
        [colNodeNext] ∧
      lookupMut mNodesW "nodes" = some nodeNodeW) ∧
    (∃ fsC eTo eFrom,
      lookupMut (upsertOneToX inflectEN mNodesW nodesT) "nodes" =
        some { nodeNodeW with fields := fsC, edges := nodeNodeW.edges ++ [eTo, eFrom] } ∧
      (∃ s, eTo.ename = "child_" ++ s) ∧
      (∃ s, eFrom.ename = "parent_" ++ s) ∧
      eTo.ename ≠ eFrom.ename) :=
  ⟨⟨rfl, rfl, rfl⟩,
    C7_recursive_edges inflectEN mNodesW nodesT
      { columns := [colNodeNext], refTableName := "nodes" } colNodeNext nodeNodeW
      rfl rfl rfl rfl⟩

/-! ## Claim C9: integer width round-trip -/

/-- C9, counterexample: MySQL maps both `mediumint` (declared width class
24 bits) and `int` (declared width class 32 bits) to the same 32-bit
field class, so distinct declared widths do not map to distinct width
classes, and `mediumint` does not recover its declared class. -/
theorem C9_counterexample :
    mysqlConvertInteger "mediumint" false = some FieldType.int32 ∧
    mysqlConvertInteger "int" false = some FieldType.int32 ∧
    mysqlConvertInteger "mediumint" true = some FieldType.uint32 ∧
    mysqlConvertInteger "int" true = some FieldType.uint32 ∧
    mysqlDeclaredBits "mediumint" = some 24 ∧
    mysqlDeclaredBits "int" = some 32 ∧
    fieldBits FieldType.int32 = some 32 := by
  decide

/-- C9 (amended): within a dialect and signedness the integer mappers
recover the declared width class and are injective on declared widths,
except that MySQL maps both `mediumint` and `int` to the 32-bit class
(so `mediumint` does not recover its 24-bit class); the PostgreSQL
mapper is injective and recovers every declared width class. -/
theorem C9_roundtrip (t1 t2 : String) (u : Bool)
    (h1 : t1 ∈ mysqlIntTypes) (h2 : t2 ∈ mysqlIntTypes) :
    (mysqlConvertInteger t1 u = mysqlConvertInteger t2 u →
      t1 = t2 ∨ (t1 ∈ ["mediumint", "int"] ∧ t2 ∈ ["mediumint", "int"])) ∧
    (t1 ≠ "mediumint" →
      (mysqlConvertInteger t1 u).bind fieldBits = mysqlDeclaredBits t1) ∧
    (∀ s1 s2, s1 ∈ pgIntTypes → s2 ∈ pgIntTypes →
      (pgConvertInteger s1 = pgConvertInteger s2 → s1 = s2) ∧
      (pgConvertInteger s1).bind fieldBits = pgDeclaredBits s1) := by
  simp only [mysqlIntTypes, List.mem_cons, List.not_mem_nil, or_false] at h1 h2
  refine ⟨?_, ?_, ?_⟩
  · rcases h1 with rfl | rfl | rfl | rfl | rfl <;>
      rcases h2 with rfl | rfl | rfl | rfl | rfl <;>
      cases u <;> decide
  · rcases h1 with rfl | rfl | rfl | rfl | rfl <;> cases u <;> decide
  · intro s1 s2 hs1 hs2
    simp only [pgIntTypes, List.mem_cons, List.not_mem_nil, or_false] at hs1 hs2
    rcases hs1 with rfl | rfl | rfl <;> rcases hs2 with rfl | rfl | rfl <;> decide

/-- C9, witness: the amended round-trip theorem applied at
`tinyint` / `smallint`, unsigned. -/
theorem C9_roundtrip_witness :
    (("tinyint" ∈ mysqlIntTypes) ∧ ("smallint" ∈ mysqlIntTypes)) ∧
    ((mysqlConvertInteger "tinyint" false = mysqlConvertInteger "smallint" false →
        "tinyint" = "smallint" ∨
          ("tinyint" ∈ ["mediumint", "int"] ∧ "smallint" ∈ ["mediumint", "int"])) ∧
      ("tinyint" ≠ "mediumint" →
        (mysqlConvertInteger "tinyint" false).bind fieldBits = mysqlDeclaredBits "tinyint") ∧
      (∀ s1 s2, s1 ∈ pgIntTypes → s2 ∈ pgIntTypes →
        (pgConvertInteger s1 = pgConvertInteger s2 → s1 = s2) ∧
        (pgConvertInteger s1).bind fieldBits = pgDeclaredBits s1)) :=
  ⟨⟨by decide, by decide⟩, C9_roundtrip "tinyint" "smallint" false (by decide) (by decide)⟩

end Entimport
